import Mathlib

/-!
Verification of the synergy-statistics engine (hash-keyed counting store,
pair-key codec, label computation, model persistence).

The C sources are embedded shallowly:

* `uint64_t` values are represented as `Nat`, with an explicit `% 2 ^ 64`
  at every operation where C wraparound can occur (counter increments,
  multiplication inside the hash function).
* `int64_t` intermediate values (the derived contingency buckets in
  `labels_compute_pair`) are represented as `Int`; the C cast
  `(int64_t)x` of a `uint64_t` is modelled exactly, including its
  wrap-to-negative behaviour for `x ≥ 2 ^ 63`.
* `double` values appear only in the Beta-smoothed probabilities; they are
  modelled as exact rationals (`ℚ`).  `float` values inside the embedding
  model are never inspected arithmetically by the round-trip claims, so
  they are modelled by their 32-bit pay-load patterns (`Nat` below `2 ^ 32`),
  and the floating-point operations of `model_predict` are taken as
  arbitrary parameters: bit-for-bit equality of predictions holds for every
  interpretation of those operations.
* Fallible C functions returning `NULL` or `-1` are modelled with `Option`.
* Heap allocation is assumed to succeed (allocation failure is an
  out-of-memory condition orthogonal to every claim treated here).
-/

set_option maxHeartbeats 1000000

namespace AgentOrch

/-! ### Embedding of src/src/hash.h and src/src/hash.c -/

/-- Modulus of 64-bit unsigned arithmetic. -/
def M64 : Nat := 2 ^ 64

/-- In-band sentinel marking an empty slot (`HASH_EMPTY_KEY`, `UINT64_MAX`). -/
def HASH_EMPTY_KEY : Nat := 2 ^ 64 - 1

/-- In-band sentinel marking a deleted slot (`HASH_TOMBSTONE`, `UINT64_MAX - 1`). -/
def HASH_TOMBSTONE : Nat := 2 ^ 64 - 2

/-- One slot of the open-addressing table (`HashEntry` of hash.h):
a key together with a game count `n` and a win count `w`. -/
structure HashEntry where
  key : Nat
  n : Nat
  w : Nat
deriving DecidableEq, Repr

/-- The open-addressing hash table (`HashMap` of hash.h).  The C `entries`
pointer to a `capacity`-sized array is modelled as a list of that length. -/
structure HashMap where
  entries : List HashEntry
  capacity : Nat
  size : Nat
  tombstones : Nat
deriving DecidableEq, Repr

/-- FNV-1a 64-bit offset basis. -/
def FNV_OFFSET : Nat := 14695981039346656037

/-- FNV-1a 64-bit prime. -/
def FNV_PRIME : Nat := 1099511628211

/-- FNV-1a over the 8 bytes of a 64-bit key (`hash_u64` of hash.c).
The C multiplication wraps at 2 ^ 64, hence the modulus. -/
def hash_u64 (key : Nat) : Nat :=
  (List.range 8).foldl
    (fun h i => ((h ^^^ ((key >>> (i * 8)) &&& 255)) * FNV_PRIME) % M64)
    FNV_OFFSET

/-- Capacity-rounding loop of `hashmap_init`: starting from 16, double until
the requested capacity is reached.  The C loop runs with `cap = 16 > 0`;
the positivity test below only serves the termination argument and never
changes the result for the calls the code performs. -/
def growCap (initial : Nat) (cap : Nat) : Nat :=
  if h : 0 < cap ∧ cap < initial then growCap initial (cap * 2) else cap
termination_by initial - cap
decreasing_by omega

/-- Fresh table of `hashmap_init`: all slots empty, counters zero. -/
def hashmap_init (initial_capacity : Nat) : HashMap :=
  let cap := growCap initial_capacity 16
  ⟨List.replicate cap ⟨HASH_EMPTY_KEY, 0, 0⟩, cap, 0, 0⟩

/-- Probe loop of `hashmap_get`.  `i` is the loop counter of the C `for`
loop, `steps` the number of iterations still allowed (the C loop runs at
most `capacity` times); the probed position is `(idx + i) & mask`.  The
result is the index at which the key was found. -/
def getLoop (l : List HashEntry) (mask idx key : Nat) : Nat → Nat → Option Nat
  | _, 0 => none
  | i, steps + 1 =>
    let probe := (idx + i) &&& mask
    match l[probe]? with
    | none => none
    | some e =>
      if e.key = key then some probe
      else if e.key = HASH_EMPTY_KEY then none
      else getLoop l mask idx key (i + 1) steps

/-- Index-returning variant of `hashmap_get` (the C function returns a
pointer into the `entries` array; the index identifies that pointer). -/
def hashmap_getIdx (m : HashMap) (key : Nat) : Option Nat :=
  if key = HASH_EMPTY_KEY ∨ key = HASH_TOMBSTONE then none
  else getLoop m.entries (m.capacity - 1) (hash_u64 key &&& (m.capacity - 1)) key 0 m.capacity

/-- Point lookup (`hashmap_get` of hash.c): the entry stored for `key`,
or `none` when the key is a sentinel or not present. -/
def hashmap_get (m : HashMap) (key : Nat) : Option HashEntry :=
  match hashmap_getIdx m key with
  | none => none
  | some j => m.entries[j]?

/-- Result of the probe loop of `hashmap_put`: the updated slot array, the
index of the entry for the key, whether a new entry was created, and
whether the new entry recycled a tombstone slot. -/
structure PutResult where
  entries : List HashEntry
  index : Nat
  isNew : Bool
  usedTomb : Bool
deriving DecidableEq, Repr

/-- Probe loop of `hashmap_put`.  `ft` carries the C `first_tombstone`
variable (`none` plays the role of `SIZE_MAX`). -/
def putLoop (l : List HashEntry) (mask idx key : Nat) : Option Nat → Nat → Nat → Option PutResult
  | _, _, 0 => none
  | ft, i, steps + 1 =>
    let probe := (idx + i) &&& mask
    match l[probe]? with
    | none => none
    | some e =>
      if e.key = key then some ⟨l, probe, false, false⟩
      else
        let ft2 := if e.key = HASH_TOMBSTONE ∧ ft = none then some probe else ft
        if e.key = HASH_EMPTY_KEY then
          match ft2 with
          | some t => some ⟨l.set t ⟨key, 0, 0⟩, t, true, true⟩
          | none => some ⟨l.set probe ⟨key, 0, 0⟩, probe, true, false⟩
        else putLoop l mask idx key ft2 (i + 1) steps

/-- Insert-or-find without the load-factor check (the body of `hashmap_put`
after the resize test).  Returns the updated map and the index of the
entry for the key; `none` when the C loop would fall through (only
possible on a table with no empty slot). -/
def hashmap_put_raw (m : HashMap) (key : Nat) : HashMap × Option Nat :=
  match putLoop m.entries (m.capacity - 1) (hash_u64 key &&& (m.capacity - 1)) key none 0 m.capacity with
  | none => (m, none)
  | some r =>
    (⟨r.entries, m.capacity,
      m.size + (if r.isNew then 1 else 0),
      m.tombstones - (if r.usedTomb then 1 else 0)⟩, some r.index)

/-- One step of the reinsertion loop of `hashmap_resize`.  The C code calls
the full `hashmap_put` here; during reinsertion its load-factor test
`(size + tombstones) * 10 > capacity * 7` can never fire (at most
`oldCapacity` entries are reinserted into a table of twice that capacity,
so `size * 10 ≤ oldCapacity * 10 ≤ 7 * newCapacity`), hence the raw
insert is behaviourally identical.  After the insert the C code assigns
the saved counters through the returned pointer. -/
def reinsertEntry (acc : HashMap) (e : HashEntry) : HashMap :=
  if e.key = HASH_EMPTY_KEY ∨ e.key = HASH_TOMBSTONE then acc
  else
    match hashmap_put_raw acc e.key with
    | (acc2, some j) => { acc2 with entries := acc2.entries.set j ⟨e.key, e.n, e.w⟩ }
    | (acc2, none) => acc2

/-- Grow-and-rehash (`hashmap_resize` of hash.c): double the capacity,
reset the counters, reinsert every live entry. -/
def hashmap_resize (m : HashMap) : HashMap :=
  let newCap := m.capacity * 2
  m.entries.foldl reinsertEntry ⟨List.replicate newCap ⟨HASH_EMPTY_KEY, 0, 0⟩, newCap, 0, 0⟩

/-- Insert-or-find (`hashmap_put` of hash.c): reject sentinel keys, grow
when the effective load factor exceeds 70 percent, then probe. -/
def hashmap_put (m : HashMap) (key : Nat) : HashMap × Option Nat :=
  if key = HASH_EMPTY_KEY ∨ key = HASH_TOMBSTONE then (m, none)
  else
    let m1 := if (m.size + m.tombstones) * 10 > m.capacity * 7 then hashmap_resize m else m
    hashmap_put_raw m1 key

/-- Counter update applied by `hashmap_increment` through the entry
pointer: `n` always advances, `w` only for a win; both wrap at 2 ^ 64. -/
def bumpEntry (win : Bool) (e : HashEntry) : HashEntry :=
  ⟨e.key, (e.n + 1) % M64, if win then (e.w + 1) % M64 else e.w⟩

/-- Insert-then-count (`hashmap_increment` of hash.c).  When `hashmap_put`
yields no entry the map is left exactly as `hashmap_put` left it. -/
def hashmap_increment (m : HashMap) (key : Nat) (win : Bool) : HashMap :=
  match hashmap_put m key with
  | (m2, some j) =>
    match m2.entries[j]? with
    | some e => { m2 with entries := m2.entries.set j (bumpEntry win e) }
    | none => m2
  | (m2, none) => m2

/-- Low 32 bits mask. -/
def MASK32 : Nat := 4294967295

/-- Unordered pair key (`pair_key` of hash.c): order the two identifiers,
truncate each to its low 32 bits, pack high and low words. -/
def pair_key (a b : Nat) : Nat :=
  let p := if a > b then (b, a) else (a, b)
  let a32 := p.1 &&& MASK32
  let b32 := p.2 &&& MASK32
  (a32 <<< 32) ||| b32

/-- Inverse unpacking (`pair_decode` of hash.c). -/
def pair_decode (key : Nat) : Nat × Nat :=
  ((key >>> 32) &&& MASK32, key &&& MASK32)

/-! ### Embedding of src/src/labels.h and src/src/labels.c -/

/-- Minimum number of both-present games required to emit a label
(`MIN_BOTH_PRESENT` of labels.h). -/
def MIN_BOTH_PRESENT : Nat := 500

/-- Maximum number of cards kept per game (`MAX_GAME_CARDS` of labels.h). -/
def MAX_GAME_CARDS : Nat := 100

/-- Beta-smoothing prior weight alpha (`BETA_ALPHA` of labels.h, a C
`double`; modelled as an exact rational). -/
def BETA_ALPHA : ℚ := 1

/-- Beta-smoothing prior weight beta (`BETA_BETA` of labels.h). -/
def BETA_BETA : ℚ := 1

/-- Aggregation state (`LabelContext` of labels.h).  The card-database
pointer is omitted: it is consulted only by the CSV-driven entry point
`labels_process_file`, never by the operations treated here. -/
structure LabelContext where
  total_games : Nat
  total_wins : Nat
  card_stats : HashMap
  pair_stats : HashMap
deriving DecidableEq, Repr

/-- Fresh aggregation state (`labels_init` of labels.c). -/
def labels_init : LabelContext :=
  ⟨0, 0, hashmap_init 4096, hashmap_init 65536⟩

/-- Output record for one pair (`LabelRecord` of labels.h).  The four
counts of each kind are `uint64_t`; the probabilities and the synergy
delta are `double`, modelled as exact rationals. -/
structure LabelRecord where
  card_a : Nat
  card_b : Nat
  n11 : Nat
  w11 : Nat
  n10 : Nat
  w10 : Nat
  n01 : Nat
  w01 : Nat
  n00 : Nat
  w00 : Nat
  p11 : ℚ
  p10 : ℚ
  p01 : ℚ
  p00 : ℚ
  syn_delta : ℚ
deriving DecidableEq, Repr

/-- Deduplication loop of `labels_process_game`: scan the input, keeping
each first occurrence, stopping as soon as `MAX_GAME_CARDS` distinct
values have been collected (the C loop condition
`i < count && unique_count < MAX_GAME_CARDS` re-tests the bound before
every element). -/
def cDedup (acc : List Nat) : List Nat → List Nat
  | [] => acc
  | c :: rest =>
    if acc.length < MAX_GAME_CARDS then
      if c ∈ acc then cDedup acc rest else cDedup (acc ++ [c]) rest
    else acc

/-- Pair iteration of `labels_process_game`: for indices `i < j` into the
deduplicated list, the key `pair_key` of the two cards, in loop order. -/
def pairList : List Nat → List Nat
  | [] => []
  | c :: rest => rest.map (fun d => pair_key c d) ++ pairList rest

/-- Process one game (`labels_process_game` of labels.c): bump the global
counters, then — unless the card list is empty — deduplicate and bump the
per-card and per-pair counting stores.  The `count` argument of the C
function is the length of the card array, so `count <= 0` corresponds to
the empty list. -/
def labels_process_game (ctx : LabelContext) (present_cards : List Nat) (win : Bool) :
    LabelContext :=
  let ctx1 := { ctx with
    total_games := (ctx.total_games + 1) % M64,
    total_wins := if win then (ctx.total_wins + 1) % M64 else ctx.total_wins }
  if present_cards.isEmpty then ctx1
  else
    let unique := cDedup [] present_cards
    let cs := unique.foldl (fun m c => hashmap_increment m c win) ctx1.card_stats
    let ps := (pairList unique).foldl (fun m k => hashmap_increment m k win) ctx1.pair_stats
    { ctx1 with card_stats := cs, pair_stats := ps }

/-- Beta-smoothed win probability (`labels_smooth_prob` of labels.c),
with the C `double` arithmetic modelled as exact rational arithmetic. -/
def labels_smooth_prob (wins games : Nat) : ℚ :=
  ((wins : ℚ) + BETA_ALPHA) / ((games : ℚ) + BETA_ALPHA + BETA_BETA)

/-- The C cast `(int64_t)x` of a `uint64_t` value below `2 ^ 64`. -/
def toI64 (x : Nat) : Int := if x < 2 ^ 63 then (x : Int) else (x : Int) - 2 ^ 64

/-- The C cast `(uint64_t)i` of an `int64_t` value. -/
def toU64 (i : Int) : Nat := (i % (2 ^ 64 : Int)).toNat

/-- Synergy-label computation for one pair (`labels_compute_pair` of
labels.c).  The function reads the context and fills a record on success;
it never mutates the context (the C function takes the statistics through
pointer reads only), so it is embedded as a pure partial-function from the
context.  The derived buckets are `int64_t` in C; the subtractions are
modelled as exact integer arithmetic (C signed overflow would be undefined
behaviour; the claims about this function carry explicit range hypotheses
under which no overflow occurs). -/
def labels_compute_pair (ctx : LabelContext) (card_a card_b : Nat) : Option LabelRecord :=
  match hashmap_get ctx.card_stats card_a with
  | none => none
  | some ea =>
    match hashmap_get ctx.card_stats card_b with
    | none => none
    | some eb =>
      match hashmap_get ctx.pair_stats (pair_key card_a card_b) with
      | none => none
      | some eab =>
        if eab.n < MIN_BOTH_PRESENT then none
        else
          let N := ctx.total_games
          let W := ctx.total_wins
          if W > N ∨ ea.w > ea.n ∨ eb.w > eb.n ∨ eab.w > eab.n then none
          else
            let n10 : Int := toI64 ea.n - toI64 eab.n
            let n01 : Int := toI64 eb.n - toI64 eab.n
            let n00 : Int := toI64 N - toI64 ea.n - toI64 eb.n + toI64 eab.n
            let w10 : Int := toI64 ea.w - toI64 eab.w
            let w01 : Int := toI64 eb.w - toI64 eab.w
            let w00 : Int := toI64 W - toI64 ea.w - toI64 eb.w + toI64 eab.w
            if n10 < 0 ∨ n01 < 0 ∨ n00 < 0 ∨ w10 < 0 ∨ w01 < 0 ∨ w00 < 0 then none
            else
              let rn11 := eab.n
              let rw11 := eab.w
              let rn10 := toU64 n10
              let rw10 := toU64 w10
              let rn01 := toU64 n01
              let rw01 := toU64 w01
              let rn00 := toU64 n00
              let rw00 := toU64 w00
              if (rn11 + rn10 + rn01 + rn00) % M64 ≠ N ∨ (rw11 + rw10 + rw01 + rw00) % M64 ≠ W then
                none
              else
                let p11 := labels_smooth_prob rw11 rn11
                let p10 := labels_smooth_prob rw10 rn10
                let p01 := labels_smooth_prob rw01 rn01
                let p00 := labels_smooth_prob rw00 rn00
                some ⟨card_a, card_b, rn11, rw11, rn10, rw10, rn01, rw01, rn00, rw00,
                  p11, p10, p01, p00, p11 - p10 - p01 + p00⟩

/-- Range conditions under which the `int64_t` arithmetic of
`labels_compute_pair` cannot overflow: every counter involved is below
`2 ^ 62`.  Any realistically reachable context satisfies this (the
counters count processed games). -/
def CtxBounded (ctx : LabelContext) : Prop :=
  ctx.total_games < 2 ^ 62 ∧ ctx.total_wins < 2 ^ 62 ∧
    (∀ e ∈ ctx.card_stats.entries, e.n < 2 ^ 62 ∧ e.w < 2 ^ 62) ∧
    (∀ e ∈ ctx.pair_stats.entries, e.n < 2 ^ 62 ∧ e.w < 2 ^ 62)

instance (ctx : LabelContext) : Decidable (CtxBounded ctx) := by
  unfold CtxBounded
  infer_instance

/-- Witness context for the compute-pair claims: the scenario of the
specification (1000 games, 600 wins, card 1 in 600 games with 300 wins,
card 2 in 550 games with 250 wins, 510 co-occurrences with 250 joint
wins), with each entry stored at its home slot of a 16-slot table. -/
def wctx : LabelContext :=
  ⟨1000, 600,
    ⟨((List.replicate 16 (⟨HASH_EMPTY_KEY, 0, 0⟩ : HashEntry)).set
        (hash_u64 1 &&& 15) ⟨1, 600, 300⟩).set (hash_u64 2 &&& 15) ⟨2, 550, 250⟩,
      16, 2, 0⟩,
    ⟨(List.replicate 16 (⟨HASH_EMPTY_KEY, 0, 0⟩ : HashEntry)).set
        (hash_u64 (pair_key 1 2) &&& 15) ⟨pair_key 1 2, 510, 250⟩,
      16, 1, 0⟩⟩

/-- Record emitted by `labels_compute_pair` at the witness context. -/
def wrecC1 : LabelRecord :=
  ⟨1, 2, 510, 250, 90, 50, 40, 0, 360, 300,
    labels_smooth_prob 250 510, labels_smooth_prob 50 90,
    labels_smooth_prob 0 40, labels_smooth_prob 300 360,
    labels_smooth_prob 250 510 - labels_smooth_prob 50 90
      - labels_smooth_prob 0 40 + labels_smooth_prob 300 360⟩

/-- Context for the C6 witness with more total wins than total games. -/
def wctx6a : LabelContext :=
  ⟨1000, 2000, wctx.card_stats, wctx.pair_stats⟩

/-- Context for the C6 witness with a pair count exceeding a card count,
which drives the derived bucket `n10` negative. -/
def wctx6b : LabelContext :=
  ⟨1000, 600, wctx.card_stats,
    ⟨(List.replicate 16 (⟨HASH_EMPTY_KEY, 0, 0⟩ : HashEntry)).set
        (hash_u64 (pair_key 1 2) &&& 15) ⟨pair_key 1 2, 700, 100⟩,
      16, 1, 0⟩⟩

/-! ### Embedding of src/src/train.h and src/src/train.c (model persistence)

The persisted file is modelled as the list of its bytes.  A C `float` is
identified with its 32-bit pattern, written and read back verbatim by
`fwrite` and `fread`; `model_predict` is parametrised by the two
floating-point operations it uses, so bit-for-bit equality of predictions
is established for every interpretation of those operations. -/

/-- Fixed embedding width (`EMBED_DIM` of train.h). -/
def EMBED_DIM : Nat := 16

/-- File magic (`MODEL_MAGIC` of train.h). -/
def MODEL_MAGIC : Nat := 0x53594E31

/-- Format version (`MODEL_VERSION` of train.h). -/
def MODEL_VERSION : Nat := 1

/-- Per-card parameters (`CardModel` of train.h): identifier, bias
pattern, and the 16 embedding-component patterns. -/
structure CardModel where
  card_id : Nat
  bias : Nat
  embedding : List Nat
deriving DecidableEq, Repr

/-- The full model (`SynergyModel` of train.h).  The C `num_cards` is the
length of the card list; `capacity` only tracks allocation and plays no
behavioural role. -/
structure SynergyModel where
  cards : List CardModel
  global_bias : Nat
  embed_dim : Nat
deriving DecidableEq, Repr

/-- Little-endian bytes of a `uint32_t` as written by `fwrite`. -/
def u32le (x : Nat) : List Nat :=
  [x % 256, x / 256 % 256, x / 256 ^ 2 % 256, x / 256 ^ 3 % 256]

/-- Little-endian bytes of a `uint64_t` as written by `fwrite`. -/
def u64le (x : Nat) : List Nat :=
  [x % 256, x / 256 % 256, x / 256 ^ 2 % 256, x / 256 ^ 3 % 256,
    x / 256 ^ 4 % 256, x / 256 ^ 5 % 256, x / 256 ^ 6 % 256, x / 256 ^ 7 % 256]

/-- One `fread` of a `uint32_t` (or one `float` pattern). -/
def rdU32 : List Nat → Option (Nat × List Nat)
  | b0 :: b1 :: b2 :: b3 :: rest =>
    some (b0 + 256 * b1 + 256 ^ 2 * b2 + 256 ^ 3 * b3, rest)
  | _ => none

/-- One `fread` of a `uint64_t`. -/
def rdU64 : List Nat → Option (Nat × List Nat)
  | b0 :: b1 :: b2 :: b3 :: b4 :: b5 :: b6 :: b7 :: rest =>
    some (b0 + 256 * b1 + 256 ^ 2 * b2 + 256 ^ 3 * b3 + 256 ^ 4 * b4 + 256 ^ 5 * b5 +
      256 ^ 6 * b6 + 256 ^ 7 * b7, rest)
  | _ => none

/-- Serialisation of `model_save` (train.c): header of four `uint32_t`
fields, then per card the identifier, the bias and the first
`embed_dim` embedding components, then the global bias.  The header
counts are the C casts `(uint32_t)embed_dim` and
`(uint32_t)num_cards`. -/
def model_save (m : SynergyModel) : List Nat :=
  let dim := m.embed_dim % 2 ^ 32
  u32le MODEL_MAGIC ++ u32le MODEL_VERSION ++ u32le dim ++ u32le (m.cards.length % 2 ^ 32) ++
    (m.cards.map (fun c =>
      u64le c.card_id ++ u32le c.bias ++ ((c.embedding.take dim).map u32le).flatten)).flatten ++
    u32le m.global_bias

/-- The `fread` loop of `model_load` for the `dim` embedding components
of one card. -/
def rdFloats : Nat → List Nat → Option (List Nat × List Nat)
  | 0, bytes => some ([], bytes)
  | k + 1, bytes =>
    match rdU32 bytes with
    | none => none
    | some (f, rest) =>
      match rdFloats k rest with
      | none => none
      | some (fs, rest2) => some (f :: fs, rest2)

/-- The card-reading loop of `model_load`: identifier, bias, `dim`
components, with the remaining dimensions zero-padded. -/
def rdCards (dim : Nat) : Nat → List Nat → Option (List CardModel × List Nat)
  | 0, bytes => some ([], bytes)
  | k + 1, bytes =>
    match rdU64 bytes with
    | none => none
    | some (cid, r1) =>
      match rdU32 r1 with
      | none => none
      | some (bias, r2) =>
        match rdFloats dim r2 with
        | none => none
        | some (emb, r3) =>
          match rdCards dim k r3 with
          | none => none
          | some (cs, r4) =>
            some (⟨cid, bias, emb ++ List.replicate (EMBED_DIM - dim) 0⟩ :: cs, r4)

/-- Deserialisation of `model_load` (train.c): read and check the header,
read the cards, read the global bias.  Unknown magic or version, or an
embedding dimension above the build maximum, fail the whole load; bytes
after the global bias are ignored (the C function never reads them). -/
def model_load (bytes : List Nat) : Option SynergyModel :=
  match rdU32 bytes with
  | none => none
  | some (magic, r1) =>
    match rdU32 r1 with
    | none => none
    | some (version, r2) =>
      match rdU32 r2 with
      | none => none
      | some (dim, r3) =>
        match rdU32 r3 with
        | none => none
        | some (num_cards, r4) =>
          if magic ≠ MODEL_MAGIC ∨ version ≠ MODEL_VERSION then none
          else if EMBED_DIM < dim then none
          else
            match rdCards dim num_cards r4 with
            | none => none
            | some (cards, r5) =>
              match rdU32 r5 with
              | none => none
              | some (gb, _) => some ⟨cards, gb, dim⟩

/-- Linear scan of `model_find_card` (train.c): the first card with the
requested identifier. -/
def model_find_card (m : SynergyModel) (card_id : Nat) : Option CardModel :=
  m.cards.find? (fun c => c.card_id = card_id)

/-- Prediction (`model_predict` of train.c), parametrised by the
floating-point addition and multiplication.  The accumulator starts at
the pattern of `0.0f`, which is zero; when either card is absent the
global bias is returned. -/
def model_predict (fadd fmul : Nat → Nat → Nat) (m : SynergyModel) (a b : Nat) : Nat :=
  match model_find_card m a, model_find_card m b with
  | some ma, some mb =>
    let dot := (List.range m.embed_dim).foldl
      (fun acc j => fadd acc (fmul (ma.embedding.getD j 0) (mb.embedding.getD j 0))) 0
    fadd (fadd (fadd dot ma.bias) mb.bias) m.global_bias
  | _, _ => m.global_bias

/-- Representation constraints a C `SynergyModel` satisfies by type:
the embedding dimension fits the fixed array, the counters fit their
integer types, and every stored pattern fits 32 or 64 bits. -/
def ModelWF (m : SynergyModel) : Prop :=
  m.embed_dim ≤ EMBED_DIM ∧ m.cards.length < 2 ^ 32 ∧ m.global_bias < 2 ^ 32 ∧
    ∀ c ∈ m.cards, c.card_id < 2 ^ 64 ∧ c.bias < 2 ^ 32 ∧
      c.embedding.length = EMBED_DIM ∧ ∀ v ∈ c.embedding, v < 2 ^ 32

instance (m : SynergyModel) : Decidable (ModelWF m) := by
  unfold ModelWF
  infer_instance

/-- Witness model for C2: two cards with concrete patterns. -/
def wmodel : SynergyModel :=
  ⟨[⟨1, 7, [10, 11, 12, 13, 14, 15, 16, 17, 18, 19, 20, 21, 22, 23, 24, 25]⟩,
    ⟨2, 9, [30, 31, 32, 33, 34, 35, 36, 37, 38, 39, 40, 41, 42, 43, 44, 45]⟩],
    3, 16⟩

/-! ### Well-formedness of the counting store

The table invariant maintained by the hash.c API: the capacity is the
power-of-two length of the slot array, the stored counters track the live
and tombstone slots, live keys are distinct, every live entry is reachable
from its home slot through non-empty slots (the linear-probe chain), and
at least one slot is empty. -/

/-- A slot that holds a real entry (neither empty nor tombstone). -/
def isLiveB (e : HashEntry) : Bool :=
  e.key != HASH_EMPTY_KEY && e.key != HASH_TOMBSTONE

/-- A tombstone slot. -/
def isTombB (e : HashEntry) : Bool := e.key == HASH_TOMBSTONE

/-- An empty slot. -/
def isEmptyB (e : HashEntry) : Bool := e.key == HASH_EMPTY_KEY

/-- A key that the store can hold (not one of the two sentinels). -/
def validKey (k : Nat) : Prop := k ≠ HASH_EMPTY_KEY ∧ k ≠ HASH_TOMBSTONE

instance (k : Nat) : Decidable (validKey k) := by
  unfold validKey
  infer_instance

/-- Table invariant. -/
structure WF (m : HashMap) : Prop where
  hlen : m.entries.length = m.capacity
  hpow : ∃ t, m.capacity = 2 ^ t
  hcap : 16 ≤ m.capacity
  hsize : m.size = m.entries.countP isLiveB
  htomb : m.tombstones = m.entries.countP isTombB
  hnodup : ∀ (i j : Nat) (ei ej : HashEntry), i ≠ j →
    m.entries[i]? = some ei → m.entries[j]? = some ej →
    isLiveB ei → isLiveB ej → ei.key ≠ ej.key
  hchain : ∀ (j : Nat) (e : HashEntry), m.entries[j]? = some e → isLiveB e →
    ∃ d, d < m.capacity ∧ (hash_u64 e.key + d) % m.capacity = j ∧
      ∀ d2, d2 < d → ∀ e2, m.entries[(hash_u64 e.key + d2) % m.capacity]? = some e2 →
        e2.key ≠ HASH_EMPTY_KEY
  hslack : m.size + m.tombstones < m.capacity

/-- First tombstone slot among the probe distances below the bound (the
value of the C local `first_tombstone` when the loop has examined the
first `bound` probes). -/
def firstTombIn (l : List HashEntry) (cap x : Nat) : Nat → Option Nat
  | 0 => none
  | b + 1 =>
    match firstTombIn l cap x b with
    | some s => some s
    | none =>
      match l[(x + b) % cap]? with
      | some e => if e.key = HASH_TOMBSTONE then some ((x + b) % cap) else none
      | none => none

/-! ### Reachable stores and the win-count invariant -/

/-- Stores reachable from `hashmap_init` by the public mutators
(`hashmap_put`, `hashmap_increment`; resizes happen inside them). -/
inductive Reach : HashMap → Prop where
  | init : ∀ c : Nat, Reach (hashmap_init c)
  | put : ∀ (m : HashMap) (k : Nat), Reach m → Reach (hashmap_put m k).1
  | inc : ∀ (m : HashMap) (k : Nat) (win : Bool), Reach m → Reach (hashmap_increment m k win)

/-- Reachability indexed by the number of `hashmap_increment` calls
performed on the way. -/
inductive ReachN : Nat → HashMap → Prop where
  | init : ∀ c : Nat, ReachN 0 (hashmap_init c)
  | put : ∀ (t : Nat) (m : HashMap) (k : Nat), ReachN t m → ReachN t (hashmap_put m k).1
  | inc : ∀ (t : Nat) (m : HashMap) (k : Nat) (win : Bool),
      ReachN t m → ReachN (t + 1) (hashmap_increment m k win)

/-- `N` repeated `hashmap_increment` calls on the same key. -/
def incIterN (k : Nat) (win : Bool) : Nat → HashMap → HashMap
  | 0, m => m
  | t + 1, m => incIterN k win t (hashmap_increment m k win)

/-! ### Counting behaviour of labels_process_game -/

/-- A fresh 16-slot table, the literal value of `hashmap_init` for any
requested capacity up to 16. -/
def fresh16 : HashMap :=
  ⟨List.replicate 16 ⟨HASH_EMPTY_KEY, 0, 0⟩, 16, 0, 0⟩

/-- Stored game count for a key, 0 when absent. -/
def lookN (m : HashMap) (k : Nat) : Nat :=
  match hashmap_get m k with
  | some e => e.n
  | none => 0

/-- Stored win count for a key, 0 when absent. -/
def lookW (m : HashMap) (k : Nat) : Nat :=
  match hashmap_get m k with
  | some e => e.w
  | none => 0

/-! ### Arithmetic facts about the pair-key packing -/

theorem mask32_and (x : Nat) : x &&& MASK32 = x % 2 ^ 32 := by
  have h : MASK32 = 2 ^ 32 - 1 := by norm_num [MASK32]
  rw [h, Nat.and_pow_two_sub_one_eq_mod]

theorem testBit_div_two_pow (x i j : Nat) : (x / 2 ^ i).testBit j = x.testBit (i + j) := by
  rw [← Nat.shiftRight_eq_div_pow, Nat.testBit_shiftRight]

theorem shiftLeft32_lor_eq_add (x y : Nat) (hy : y < 2 ^ 32) :
    x <<< 32 ||| y = x * 2 ^ 32 + y := by
  apply Nat.eq_of_testBit_eq
  intro i
  rw [Nat.testBit_lor, Nat.testBit_shiftLeft]
  rcases Nat.lt_or_ge i 32 with hi | hi
  · have h1 : (decide (i ≥ 32) && x.testBit (i - 32)) = false := by
      simp [Nat.not_le.mpr hi]
    rw [h1, Bool.false_or]
    have h2 : (x * 2 ^ 32 + y).testBit i = ((x * 2 ^ 32 + y) % 2 ^ 32).testBit i := by
      rw [Nat.testBit_mod_two_pow]
      simp [hi]
    have h3 : (x * 2 ^ 32 + y) % 2 ^ 32 = y := by
      rw [Nat.add_comm, Nat.add_mul_mod_self_right, Nat.mod_eq_of_lt hy]
    rw [h2, h3]
  · obtain ⟨j, rfl⟩ : ∃ j, i = 32 + j := ⟨i - 32, by omega⟩
    have hyb : y.testBit (32 + j) = false :=
      Nat.testBit_lt_two_pow (lt_of_lt_of_le hy (Nat.pow_le_pow_right (by norm_num) (by omega)))
    have hdiv : (x * 2 ^ 32 + y) / 2 ^ 32 = x := by
      rw [Nat.mul_comm, Nat.mul_add_div (by norm_num), Nat.div_eq_of_lt hy]
      omega
    have h4 : (x * 2 ^ 32 + y).testBit (32 + j) = x.testBit j := by
      rw [← testBit_div_two_pow, hdiv]
    rw [h4, hyb, Bool.or_false]
    simp [Nat.le_add_right, Nat.add_sub_cancel_left]

theorem pair_decode_pack (x y : Nat) (hx : x < 2 ^ 32) (hy : y < 2 ^ 32) :
    pair_decode ((x <<< 32) ||| y) = (x, y) := by
  rw [pair_decode, shiftLeft32_lor_eq_add x y hy]
  have hsh : (x * 2 ^ 32 + y) >>> 32 = x := by
    rw [Nat.shiftRight_eq_div_pow, Nat.mul_comm, Nat.mul_add_div (by norm_num),
      Nat.div_eq_of_lt hy]
    omega
  rw [hsh, mask32_and, mask32_and, Nat.mod_eq_of_lt hx,
    Nat.add_comm, Nat.add_mul_mod_self_right, Nat.mod_eq_of_lt hy]

/-- C3: the pair key is order-independent, and decoding recovers the
unordered pair of the low-32-bit truncations of the two identifiers. -/
theorem pair_key_comm_and_decode (a b : Nat) (ha : a < 2 ^ 64) (hb : b < 2 ^ 64) :
    pair_key a b = pair_key b a ∧
      (pair_decode (pair_key a b) = (a % 2 ^ 32, b % 2 ^ 32) ∨
        pair_decode (pair_key a b) = (b % 2 ^ 32, a % 2 ^ 32)) := by
  constructor
  · unfold pair_key
    rcases Nat.lt_trichotomy a b with h | h | h
    · rw [if_neg (by omega), if_pos (by omega)]
    · subst h
      rfl
    · rw [if_pos (by omega), if_neg (by omega)]
  · unfold pair_key
    rcases Nat.lt_or_ge b a with h | h
    · rw [if_pos (by omega)]
      right
      simp only [mask32_and]
      exact pair_decode_pack _ _ (Nat.mod_lt _ (by norm_num)) (Nat.mod_lt _ (by norm_num))
    · rw [if_neg (by omega)]
      left
      simp only [mask32_and]
      exact pair_decode_pack _ _ (Nat.mod_lt _ (by norm_num)) (Nat.mod_lt _ (by norm_num))

/-- Witness for C3 at a concrete pair of identifiers. -/
theorem pair_key_comm_and_decode_witness :
    (1 : Nat) < 2 ^ 64 ∧ (2 : Nat) < 2 ^ 64 ∧
      (pair_key 1 2 = pair_key 2 1 ∧
        (pair_decode (pair_key 1 2) = (1 % 2 ^ 32, 2 % 2 ^ 32) ∨
          pair_decode (pair_key 1 2) = (2 % 2 ^ 32, 1 % 2 ^ 32))) :=
  ⟨by norm_num, by norm_num,
    pair_key_comm_and_decode 1 2 (by norm_num) (by norm_num)⟩

/-- C10: the two in-band sentinel key values can never be stored: `put`
and `get` reject them, and `increment` is a silent no-op on them. -/
theorem sentinel_keys_rejected (m : HashMap) (win : Bool) :
    hashmap_put m HASH_EMPTY_KEY = (m, none) ∧
      hashmap_put m HASH_TOMBSTONE = (m, none) ∧
      hashmap_get m HASH_EMPTY_KEY = none ∧
      hashmap_get m HASH_TOMBSTONE = none ∧
      hashmap_increment m HASH_EMPTY_KEY win = m ∧
      hashmap_increment m HASH_TOMBSTONE win = m := by
  refine ⟨?_, ?_, ?_, ?_, ?_, ?_⟩ <;>
    simp [hashmap_put, hashmap_get, hashmap_getIdx, hashmap_increment]

/-! ### C7: the smoothed probability -/

/-- C7 counterexample: the claim asserts `labels_smooth_prob w n` lies
strictly between 0 and 1 for every pair of count arguments, but with
`w = 5, n = 0` the value is 3, which is not below 1. -/
theorem labels_smooth_prob_counterexample :
    labels_smooth_prob 5 0 = 3 ∧ ¬ labels_smooth_prob 5 0 < 1 := by
  norm_num [labels_smooth_prob, BETA_ALPHA, BETA_BETA]

/-- C7 amended: `labels_smooth_prob 0 0` is exactly one half, and for
win counts not exceeding game counts the smoothed probability lies
strictly between 0 and 1. -/
theorem labels_smooth_prob_bounds :
    labels_smooth_prob 0 0 = 1 / 2 ∧
      ∀ w n : Nat, w ≤ n → 0 < labels_smooth_prob w n ∧ labels_smooth_prob w n < 1 := by
  constructor
  · norm_num [labels_smooth_prob, BETA_ALPHA, BETA_BETA]
  · intro w n hwn
    unfold labels_smooth_prob BETA_ALPHA BETA_BETA
    constructor
    · positivity
    · rw [div_lt_one (by positivity)]
      have : (w : ℚ) ≤ (n : ℚ) := by exact_mod_cast hwn
      linarith

/-- Witness for the amended C7 at concrete counts. -/
theorem labels_smooth_prob_bounds_witness :
    (2 : Nat) ≤ 3 ∧ 0 < labels_smooth_prob 2 3 ∧ labels_smooth_prob 2 3 < 1 :=
  ⟨by norm_num, labels_smooth_prob_bounds.2 2 3 (by norm_num)⟩

/-! ### Facts about the integer casts -/

theorem toI64_of_lt {x : Nat} (h : x < 2 ^ 63) : toI64 x = (x : Int) := if_pos h

theorem toU64_natCast (k : Nat) : toU64 (k : Int) = k % 2 ^ 64 := by
  unfold toU64
  omega

theorem hashmap_get_mem {m : HashMap} {k : Nat} {e : HashEntry}
    (h : hashmap_get m k = some e) : e ∈ m.entries := by
  unfold hashmap_get at h
  split at h
  · cases h
  · exact List.getElem?_mem h

/-- C6: `labels_compute_pair` declines (returns no record) when the win
totals are inconsistent (`totalWins > totalGames`, or a win count
exceeding its game count), and when any derived bucket is negative.  The
context is never mutated: the embedded function is pure, mirroring the C
function, which only reads the statistics. -/
theorem labels_compute_pair_sanity_failures (ctx : LabelContext) (a b : Nat) :
    (ctx.total_games < ctx.total_wins → labels_compute_pair ctx a b = none) ∧
      (∀ ea, hashmap_get ctx.card_stats a = some ea → ea.n < ea.w →
        labels_compute_pair ctx a b = none) ∧
      (∀ eb, hashmap_get ctx.card_stats b = some eb → eb.n < eb.w →
        labels_compute_pair ctx a b = none) ∧
      (∀ eab, hashmap_get ctx.pair_stats (pair_key a b) = some eab → eab.n < eab.w →
        labels_compute_pair ctx a b = none) ∧
      (∀ ea eb eab,
        hashmap_get ctx.card_stats a = some ea →
        hashmap_get ctx.card_stats b = some eb →
        hashmap_get ctx.pair_stats (pair_key a b) = some eab →
        (toI64 ea.n - toI64 eab.n < 0 ∨ toI64 eb.n - toI64 eab.n < 0 ∨
          toI64 ctx.total_games - toI64 ea.n - toI64 eb.n + toI64 eab.n < 0 ∨
          toI64 ea.w - toI64 eab.w < 0 ∨ toI64 eb.w - toI64 eab.w < 0 ∨
          toI64 ctx.total_wins - toI64 ea.w - toI64 eb.w + toI64 eab.w < 0) →
        labels_compute_pair ctx a b = none) := by
  refine ⟨?_, ?_, ?_, ?_, ?_⟩
  · intro hWN
    unfold labels_compute_pair
    cases hga : hashmap_get ctx.card_stats a with
    | none => rfl
    | some ea =>
      cases hgb : hashmap_get ctx.card_stats b with
      | none => rfl
      | some eb =>
        cases hgp : hashmap_get ctx.pair_stats (pair_key a b) with
        | none => rfl
        | some eab =>
          by_cases ht : eab.n < MIN_BOTH_PRESENT
          · simp [ht]
          · simp only [ht, if_false]
            rw [if_pos (Or.inl hWN)]
  · intro ea hga hea
    unfold labels_compute_pair
    rw [hga]
    cases hgb : hashmap_get ctx.card_stats b with
    | none => rfl
    | some eb =>
      cases hgp : hashmap_get ctx.pair_stats (pair_key a b) with
      | none => rfl
      | some eab =>
        by_cases ht : eab.n < MIN_BOTH_PRESENT
        · simp [ht]
        · simp only [ht, if_false]
          rw [if_pos (Or.inr (Or.inl hea))]
  · intro eb hgb heb
    unfold labels_compute_pair
    cases hga : hashmap_get ctx.card_stats a with
    | none => rfl
    | some ea =>
      rw [hgb]
      cases hgp : hashmap_get ctx.pair_stats (pair_key a b) with
      | none => rfl
      | some eab =>
        by_cases ht : eab.n < MIN_BOTH_PRESENT
        · simp [ht]
        · simp only [ht, if_false]
          rw [if_pos (Or.inr (Or.inr (Or.inl heb)))]
  · intro eab hgp heab
    unfold labels_compute_pair
    cases hga : hashmap_get ctx.card_stats a with
    | none => rfl
    | some ea =>
      cases hgb : hashmap_get ctx.card_stats b with
      | none => rfl
      | some eb =>
        rw [hgp]
        by_cases ht : eab.n < MIN_BOTH_PRESENT
        · simp [ht]
        · simp only [ht, if_false]
          rw [if_pos (Or.inr (Or.inr (Or.inr heab)))]
  · intro ea eb eab hga hgb hgp hneg
    unfold labels_compute_pair
    rw [hga, hgb, hgp]
    by_cases ht : eab.n < MIN_BOTH_PRESENT
    · simp [ht]
    · simp only [ht, if_false]
      by_cases hs : ctx.total_games < ctx.total_wins ∨ ea.n < ea.w ∨ eb.n < eb.w ∨ eab.n < eab.w
      · rw [if_pos hs]
      · rw [if_neg hs, if_pos hneg]

theorem toU64_toI64_sub {p q : Nat} (hp : p < 2 ^ 63) (hq : q < 2 ^ 63) (hle : q ≤ p) :
    toU64 (toI64 p - toI64 q) = p - q := by
  unfold toU64 toI64
  rw [if_pos hp, if_pos hq]
  omega

theorem toU64_toI64_incl {t pa pb pab : Nat} (ht : t < 2 ^ 63) (ha : pa < 2 ^ 63)
    (hb : pb < 2 ^ 63) (hab : pab < 2 ^ 63) (h : pa + pb ≤ t + pab) :
    toU64 (toI64 t - toI64 pa - toI64 pb + toI64 pab) = t + pab - pa - pb := by
  unfold toU64 toI64
  rw [if_pos ht, if_pos ha, if_pos hb, if_pos hab]
  omega

/-- Helper carrying the full eligibility-gate case analysis of
`labels_compute_pair`; the claim-level statements are read off from it. -/
theorem compute_pair_gates_helper (ctx : LabelContext) (a b : Nat) (hB : CtxBounded ctx) :
    ((hashmap_get ctx.card_stats a = none ∨ hashmap_get ctx.card_stats b = none ∨
        hashmap_get ctx.pair_stats (pair_key a b) = none) →
      labels_compute_pair ctx a b = none) ∧
      (∀ eab, hashmap_get ctx.pair_stats (pair_key a b) = some eab →
        eab.n < MIN_BOTH_PRESENT → labels_compute_pair ctx a b = none) ∧
      (∀ ea eb eab,
        hashmap_get ctx.card_stats a = some ea →
        hashmap_get ctx.card_stats b = some eb →
        hashmap_get ctx.pair_stats (pair_key a b) = some eab →
        MIN_BOTH_PRESENT ≤ eab.n →
        ctx.total_wins ≤ ctx.total_games → ea.w ≤ ea.n → eb.w ≤ eb.n → eab.w ≤ eab.n →
        eab.n ≤ ea.n → eab.n ≤ eb.n → ea.n + eb.n ≤ ctx.total_games + eab.n →
        eab.w ≤ ea.w → eab.w ≤ eb.w → ea.w + eb.w ≤ ctx.total_wins + eab.w →
        labels_compute_pair ctx a b = some
          ⟨a, b, eab.n, eab.w, ea.n - eab.n, ea.w - eab.w, eb.n - eab.n, eb.w - eab.w,
            ctx.total_games + eab.n - ea.n - eb.n, ctx.total_wins + eab.w - ea.w - eb.w,
            labels_smooth_prob eab.w eab.n,
            labels_smooth_prob (ea.w - eab.w) (ea.n - eab.n),
            labels_smooth_prob (eb.w - eab.w) (eb.n - eab.n),
            labels_smooth_prob (ctx.total_wins + eab.w - ea.w - eb.w)
              (ctx.total_games + eab.n - ea.n - eb.n),
            labels_smooth_prob eab.w eab.n
              - labels_smooth_prob (ea.w - eab.w) (ea.n - eab.n)
              - labels_smooth_prob (eb.w - eab.w) (eb.n - eab.n)
              + labels_smooth_prob (ctx.total_wins + eab.w - ea.w - eb.w)
                  (ctx.total_games + eab.n - ea.n - eb.n)⟩) := by
  obtain ⟨hN, hW, hcs, hps⟩ := hB
  refine ⟨?_, ?_, ?_⟩
  · intro habs
    unfold labels_compute_pair
    rcases habs with h1 | h2 | h3
    · rw [h1]
    · rw [h2]
      cases hashmap_get ctx.card_stats a <;> rfl
    · rw [h3]
      cases hashmap_get ctx.card_stats a with
      | none => rfl
      | some ea => cases hashmap_get ctx.card_stats b <;> rfl
  · intro eab hgp ht
    unfold labels_compute_pair
    cases hashmap_get ctx.card_stats a with
    | none => rfl
    | some ea =>
      cases hashmap_get ctx.card_stats b with
      | none => rfl
      | some eb =>
        simp only [hgp, if_pos ht]
  · intro ea eb eab hga hgb hgp hth hsWN hsa hsb hsab hna hnb hn00 hwa hwb hw00
    have hbea := hcs ea (hashmap_get_mem hga)
    have hbeb := hcs eb (hashmap_get_mem hgb)
    have hbab := hps eab (hashmap_get_mem hgp)
    have pow_lt : (2 : Nat) ^ 62 < 2 ^ 63 := by norm_num
    have bN : ctx.total_games < 2 ^ 63 := lt_trans hN pow_lt
    have bW : ctx.total_wins < 2 ^ 63 := lt_trans hW pow_lt
    have bean : ea.n < 2 ^ 63 := lt_trans hbea.1 pow_lt
    have beaw : ea.w < 2 ^ 63 := lt_trans hbea.2 pow_lt
    have bebn : eb.n < 2 ^ 63 := lt_trans hbeb.1 pow_lt
    have bebw : eb.w < 2 ^ 63 := lt_trans hbeb.2 pow_lt
    have babn : eab.n < 2 ^ 63 := lt_trans hbab.1 pow_lt
    have babw : eab.w < 2 ^ 63 := lt_trans hbab.2 pow_lt
    simp only [labels_compute_pair, hga, hgb, hgp]
    rw [if_neg (not_lt.mpr hth)]
    rw [if_neg (by omega)]
    rw [if_neg (by
      simp only [toI64_of_lt bN, toI64_of_lt bW, toI64_of_lt bean, toI64_of_lt beaw,
        toI64_of_lt bebn, toI64_of_lt bebw, toI64_of_lt babn, toI64_of_lt babw]
      omega)]
    rw [toU64_toI64_sub bean babn hna, toU64_toI64_sub bebn babn hnb,
      toU64_toI64_sub beaw babw hwa, toU64_toI64_sub bebw babw hwb,
      toU64_toI64_incl bN bean bebn babn hn00, toU64_toI64_incl bW beaw bebw babw hw00]
    rw [if_neg (by
      unfold M64
      omega)]

/-- C5: `labels_compute_pair` declines when any of the three lookups is
absent or when the pair count is below `MIN_BOTH_PRESENT`; when the
lookups succeed, the threshold is met and every subsequent validity check
holds, it emits the filled record. -/
theorem labels_compute_pair_gates (ctx : LabelContext) (a b : Nat) (hB : CtxBounded ctx) :
    ((hashmap_get ctx.card_stats a = none ∨ hashmap_get ctx.card_stats b = none ∨
        hashmap_get ctx.pair_stats (pair_key a b) = none) →
      labels_compute_pair ctx a b = none) ∧
      (∀ eab, hashmap_get ctx.pair_stats (pair_key a b) = some eab →
        eab.n < MIN_BOTH_PRESENT → labels_compute_pair ctx a b = none) ∧
      (∀ ea eb eab,
        hashmap_get ctx.card_stats a = some ea →
        hashmap_get ctx.card_stats b = some eb →
        hashmap_get ctx.pair_stats (pair_key a b) = some eab →
        MIN_BOTH_PRESENT ≤ eab.n →
        ctx.total_wins ≤ ctx.total_games → ea.w ≤ ea.n → eb.w ≤ eb.n → eab.w ≤ eab.n →
        eab.n ≤ ea.n → eab.n ≤ eb.n → ea.n + eb.n ≤ ctx.total_games + eab.n →
        eab.w ≤ ea.w → eab.w ≤ eb.w → ea.w + eb.w ≤ ctx.total_wins + eab.w →
        labels_compute_pair ctx a b = some
          ⟨a, b, eab.n, eab.w, ea.n - eab.n, ea.w - eab.w, eb.n - eab.n, eb.w - eab.w,
            ctx.total_games + eab.n - ea.n - eb.n, ctx.total_wins + eab.w - ea.w - eb.w,
            labels_smooth_prob eab.w eab.n,
            labels_smooth_prob (ea.w - eab.w) (ea.n - eab.n),
            labels_smooth_prob (eb.w - eab.w) (eb.n - eab.n),
            labels_smooth_prob (ctx.total_wins + eab.w - ea.w - eb.w)
              (ctx.total_games + eab.n - ea.n - eb.n),
            labels_smooth_prob eab.w eab.n
              - labels_smooth_prob (ea.w - eab.w) (ea.n - eab.n)
              - labels_smooth_prob (eb.w - eab.w) (eb.n - eab.n)
              + labels_smooth_prob (ctx.total_wins + eab.w - ea.w - eb.w)
                  (ctx.total_games + eab.n - ea.n - eb.n)⟩) :=
  compute_pair_gates_helper ctx a b hB

/-- Witness for C5: at the witness context, the hypotheses of the success
branch hold for the stored entries and the record is emitted. -/
theorem labels_compute_pair_gates_witness :
    hashmap_get wctx.card_stats 1 = some ⟨1, 600, 300⟩ ∧
      labels_compute_pair wctx 1 2 = some
        ⟨1, 2, 510, 250, 90, 50, 40, 0, 360, 300,
          labels_smooth_prob 250 510, labels_smooth_prob 50 90,
          labels_smooth_prob 0 40, labels_smooth_prob 300 360,
          labels_smooth_prob 250 510 - labels_smooth_prob 50 90
            - labels_smooth_prob 0 40 + labels_smooth_prob 300 360⟩ := by
  refine ⟨by decide, ?_⟩
  have h := (labels_compute_pair_gates wctx 1 2 (by decide)).2.2
    ⟨1, 600, 300⟩ ⟨2, 550, 250⟩ ⟨pair_key 1 2, 510, 250⟩
    (by decide) (by decide) (by decide)
    (by decide) (by decide) (by decide) (by decide) (by decide)
    (by decide) (by decide) (by decide) (by decide) (by decide) (by decide)
  exact h

/-- C1: every record emitted by `labels_compute_pair` has its four game
buckets summing exactly to the total game count and its four win buckets
summing exactly to the total win count; all eight bucket values are
non-negative (they are natural numbers in the embedding, mirroring the
`uint64_t` record fields, so the last conjuncts are inherent). -/
theorem labels_compute_pair_bucket_sums (ctx : LabelContext) (a b : Nat) (r : LabelRecord)
    (hB : CtxBounded ctx) (h : labels_compute_pair ctx a b = some r) :
    r.n11 + r.n10 + r.n01 + r.n00 = ctx.total_games ∧
      r.w11 + r.w10 + r.w01 + r.w00 = ctx.total_wins ∧
      0 ≤ r.n11 ∧ 0 ≤ r.n10 ∧ 0 ≤ r.n01 ∧ 0 ≤ r.n00 ∧
      0 ≤ r.w11 ∧ 0 ≤ r.w10 ∧ 0 ≤ r.w01 ∧ 0 ≤ r.w00 := by
  obtain ⟨hN, hW, hcs, hps⟩ := hB
  cases hga : hashmap_get ctx.card_stats a with
  | none => simp [labels_compute_pair, hga] at h
  | some ea =>
  cases hgb : hashmap_get ctx.card_stats b with
  | none => simp [labels_compute_pair, hga, hgb] at h
  | some eb =>
  cases hgp : hashmap_get ctx.pair_stats (pair_key a b) with
  | none => simp [labels_compute_pair, hga, hgb, hgp] at h
  | some eab =>
  simp only [labels_compute_pair, hga, hgb, hgp] at h
  have hbea := hcs ea (hashmap_get_mem hga)
  have hbeb := hcs eb (hashmap_get_mem hgb)
  have hbab := hps eab (hashmap_get_mem hgp)
  have pow_lt : (2 : Nat) ^ 62 < 2 ^ 63 := by norm_num
  have bN : ctx.total_games < 2 ^ 63 := lt_trans hN pow_lt
  have bW : ctx.total_wins < 2 ^ 63 := lt_trans hW pow_lt
  have bean : ea.n < 2 ^ 63 := lt_trans hbea.1 pow_lt
  have beaw : ea.w < 2 ^ 63 := lt_trans hbea.2 pow_lt
  have bebn : eb.n < 2 ^ 63 := lt_trans hbeb.1 pow_lt
  have bebw : eb.w < 2 ^ 63 := lt_trans hbeb.2 pow_lt
  have babn : eab.n < 2 ^ 63 := lt_trans hbab.1 pow_lt
  have babw : eab.w < 2 ^ 63 := lt_trans hbab.2 pow_lt
  split at h
  · cases h
  · split at h
    · cases h
    · rename_i hsan
      split at h
      · cases h
      · rename_i hneg
        split at h
        · cases h
        · rename_i hsum
          injection h with h2
          subst h2
          simp only [toI64_of_lt bN, toI64_of_lt bW, toI64_of_lt bean, toI64_of_lt beaw,
            toI64_of_lt bebn, toI64_of_lt bebw, toI64_of_lt babn, toI64_of_lt babw] at hneg hsum
          push_neg at hsan hneg hsum
          obtain ⟨hs1, hs2, hs3, hs4⟩ := hsan
          obtain ⟨hn10, hn01, hn00, hw10, hw01, hw00⟩ := hneg
          obtain ⟨hsn, hsw⟩ := hsum
          refine ⟨?_, ?_, Nat.zero_le _, Nat.zero_le _, Nat.zero_le _, Nat.zero_le _,
            Nat.zero_le _, Nat.zero_le _, Nat.zero_le _, Nat.zero_le _⟩
          · simp only [toU64, M64, toI64_of_lt bN, toI64_of_lt bean, toI64_of_lt bebn,
              toI64_of_lt babn] at hsn ⊢
            omega
          · simp only [toU64, M64, toI64_of_lt bW, toI64_of_lt beaw, toI64_of_lt bebw,
              toI64_of_lt babw] at hsw ⊢
            omega

/-- Witness for C1: the witness context is bounded, the computation emits
a record, and the theorem yields the exact bucket-sum identities there. -/
theorem labels_compute_pair_bucket_sums_witness :
    wrecC1.n11 + wrecC1.n10 + wrecC1.n01 + wrecC1.n00 = wctx.total_games ∧
      wrecC1.w11 + wrecC1.w10 + wrecC1.w01 + wrecC1.w00 = wctx.total_wins :=
  let h := labels_compute_pair_bucket_sums wctx 1 2 wrecC1 (by decide)
    ((compute_pair_gates_helper wctx 1 2 (by decide)).2.2
      ⟨1, 600, 300⟩ ⟨2, 550, 250⟩ ⟨pair_key 1 2, 510, 250⟩
      (by decide) (by decide) (by decide)
      (by decide) (by decide) (by decide) (by decide) (by decide)
      (by decide) (by decide) (by decide) (by decide) (by decide) (by decide))
  ⟨h.1, h.2.1⟩

/-- Witness for C6: a win total exceeding the game total is rejected, and
a negative derived bucket is rejected. -/
theorem labels_compute_pair_sanity_failures_witness :
    labels_compute_pair wctx6a 1 2 = none ∧ labels_compute_pair wctx6b 1 2 = none :=
  ⟨(labels_compute_pair_sanity_failures wctx6a 1 2).1 (by decide),
    (labels_compute_pair_sanity_failures wctx6b 1 2).2.2.2.2
      ⟨1, 600, 300⟩ ⟨2, 550, 250⟩ ⟨pair_key 1 2, 700, 100⟩
      (by decide) (by decide) (by decide) (by decide)⟩

theorem rdU32_u32le (x : Nat) (rest : List Nat) (hx : x < 2 ^ 32) :
    rdU32 (u32le x ++ rest) = some (x, rest) := by
  simp only [u32le, List.cons_append, List.nil_append, rdU32]
  congr 1
  congr 1
  omega

theorem rdU64_u64le (x : Nat) (rest : List Nat) (hx : x < 2 ^ 64) :
    rdU64 (u64le x ++ rest) = some (x, rest) := by
  simp only [u64le, List.cons_append, List.nil_append, rdU64]
  congr 1
  congr 1
  omega

theorem rdFloats_join (fs : List Nat) (rest : List Nat) (h : ∀ f ∈ fs, f < 2 ^ 32) :
    rdFloats fs.length ((fs.map u32le).flatten ++ rest) = some (fs, rest) := by
  induction fs with
  | nil => rfl
  | cons f fs ih =>
    simp only [List.length_cons, List.map_cons, List.flatten, List.append_assoc, rdFloats,
      rdU32_u32le f _ (h f (List.mem_cons_self f fs)),
      ih (fun g hg => h g (List.mem_cons_of_mem f hg))]

theorem rdFloats_join_len (fs : List Nat) (rest : List Nat) (h : ∀ f ∈ fs, f < 2 ^ 32)
    (dim : Nat) (hl : fs.length = dim) :
    rdFloats dim ((fs.map u32le).flatten ++ rest) = some (fs, rest) :=
  hl ▸ rdFloats_join fs rest h

theorem rdCards_join (dim : Nat) (cs : List CardModel) (rest : List Nat)
    (h : ∀ c ∈ cs, c.card_id < 2 ^ 64 ∧ c.bias < 2 ^ 32 ∧
      dim ≤ c.embedding.length ∧ ∀ v ∈ c.embedding, v < 2 ^ 32) :
    rdCards dim cs.length
        ((cs.map (fun c =>
          u64le c.card_id ++ u32le c.bias ++ ((c.embedding.take dim).map u32le).flatten)).flatten ++ rest) =
      some (cs.map (fun c =>
        ⟨c.card_id, c.bias, c.embedding.take dim ++ List.replicate (EMBED_DIM - dim) 0⟩), rest) := by
  induction cs with
  | nil => rfl
  | cons c cs ih =>
    have hc := h c (List.mem_cons_self c cs)
    simp only [List.length_cons, List.map_cons, List.flatten, List.append_assoc, rdCards,
      rdU64_u64le c.card_id _ hc.1, rdU32_u32le c.bias _ hc.2.1,
      rdFloats_join_len (c.embedding.take dim) _
        (fun v hv => hc.2.2.2 v (List.mem_of_mem_take hv)) dim
        (by rw [List.length_take]; omega)]
    have ih2 := ih (fun d hd => h d (List.mem_cons_of_mem c hd))
    simp only [List.append_assoc] at ih2
    rw [ih2]

/-- Shape of the model produced by loading a saved model. -/
theorem model_load_save (m : SynergyModel) (hwf : ModelWF m) :
    model_load (model_save m) = some
      ⟨m.cards.map (fun c =>
          ⟨c.card_id, c.bias,
            c.embedding.take m.embed_dim ++ List.replicate (EMBED_DIM - m.embed_dim) 0⟩),
        m.global_bias, m.embed_dim⟩ := by
  obtain ⟨hdim, hcnt, hgb, hcards⟩ := hwf
  have hdim32 : m.embed_dim % 2 ^ 32 = m.embed_dim :=
    Nat.mod_eq_of_lt (lt_of_le_of_lt hdim (by norm_num [EMBED_DIM]))
  have hcnt32 : m.cards.length % 2 ^ 32 = m.cards.length := Nat.mod_eq_of_lt hcnt
  unfold model_save model_load
  simp only [hdim32, hcnt32, List.append_assoc,
    rdU32_u32le MODEL_MAGIC _ (by decide),
    rdU32_u32le MODEL_VERSION _ (by decide),
    rdU32_u32le m.embed_dim _ (lt_of_le_of_lt hdim (by decide)),
    rdU32_u32le m.cards.length _ hcnt]
  rw [if_neg (by simp), if_neg (by omega)]
  have hrc := rdCards_join m.embed_dim m.cards (u32le m.global_bias)
    (fun c hc => ⟨(hcards c hc).1, (hcards c hc).2.1,
      le_of_le_of_eq hdim (hcards c hc).2.2.1.symm, (hcards c hc).2.2.2⟩)
  simp only [List.append_assoc] at hrc
  have hgbr := rdU32_u32le m.global_bias [] hgb
  rw [List.append_nil] at hgbr
  simp only [hrc, hgbr]

theorem find_card_load_save (m : SynergyModel) (hwf : ModelWF m) (x : Nat) :
    ∀ m2, model_load (model_save m) = some m2 →
      model_find_card m2 x = (model_find_card m x).map (fun c =>
        ⟨c.card_id, c.bias,
          c.embedding.take m.embed_dim ++ List.replicate (EMBED_DIM - m.embed_dim) 0⟩) := by
  intro m2 h2
  rw [model_load_save m hwf] at h2
  injection h2 with h2
  subst h2
  unfold model_find_card
  rw [List.find?_map]
  rfl

/-- C2: loading the bytes produced by `model_save` yields a model whose
prediction for every pair of identifiers present in the original model is
bit-for-bit the value the original model predicts, for every
interpretation of the floating-point operations. -/
theorem model_save_load_roundtrip (m : SynergyModel) (hwf : ModelWF m)
    (fadd fmul : Nat → Nat → Nat) (x y : Nat)
    (hx : (model_find_card m x).isSome) (hy : (model_find_card m y).isSome) :
    ∃ m2, model_load (model_save m) = some m2 ∧
      model_predict fadd fmul m2 x y = model_predict fadd fmul m x y := by
  refine ⟨_, model_load_save m hwf, ?_⟩
  obtain ⟨ma, hma⟩ := Option.isSome_iff_exists.mp hx
  obtain ⟨mb, hmb⟩ := Option.isSome_iff_exists.mp hy
  have hfa := find_card_load_save m hwf x _ (model_load_save m hwf)
  have hfb := find_card_load_save m hwf y _ (model_load_save m hwf)
  rw [hma] at hfa
  rw [hmb] at hfb
  unfold model_predict
  rw [hfa, hfb, hma, hmb]
  simp only [Option.map_some']
  have hpad : ∀ c : CardModel, c ∈ m.cards → ∀ j, j < m.embed_dim →
      (c.embedding.take m.embed_dim ++ List.replicate (EMBED_DIM - m.embed_dim) 0).getD j 0 =
        c.embedding.getD j 0 := by
    intro c hc j hj
    have hlen := (hwf.2.2.2 c hc).2.2.1
    have hd : m.embed_dim ≤ c.embedding.length := by
      rw [hlen]
      exact hwf.1
    have hjlt : j < (c.embedding.take m.embed_dim).length := by
      rw [List.length_take]
      omega
    rw [List.getD_eq_getElem?_getD, List.getElem?_append_left hjlt,
      List.getElem?_take_of_lt hj, ← List.getD_eq_getElem?_getD]
  have hmam : ma ∈ m.cards := List.mem_of_find?_eq_some hma
  have hmbm : mb ∈ m.cards := List.mem_of_find?_eq_some hmb
  have hdot : (List.range m.embed_dim).foldl
      (fun acc j => fadd acc (fmul
        ((ma.embedding.take m.embed_dim ++ List.replicate (EMBED_DIM - m.embed_dim) 0).getD j 0)
        ((mb.embedding.take m.embed_dim ++ List.replicate (EMBED_DIM - m.embed_dim) 0).getD j 0))) 0 =
      (List.range m.embed_dim).foldl
        (fun acc j => fadd acc (fmul (ma.embedding.getD j 0) (mb.embedding.getD j 0))) 0 := by
    apply List.foldl_ext
    intro acc j hj
    rw [hpad ma hmam j (List.mem_range.mp hj), hpad mb hmbm j (List.mem_range.mp hj)]
  rw [hdot]

/-- Witness for C2 at the concrete model, with the floating-point
operations instantiated. -/
theorem model_save_load_roundtrip_witness :
    ∃ m2, model_load (model_save wmodel) = some m2 ∧
      model_predict Nat.add Nat.mul m2 1 2 = model_predict Nat.add Nat.mul wmodel 1 2 :=
  model_save_load_roundtrip wmodel (by decide) Nat.add Nat.mul 1 2 (by decide) (by decide)

theorem mask_mod (cap x : Nat) (h : ∃ t, cap = 2 ^ t) : x &&& (cap - 1) = x % cap := by
  obtain ⟨t, rfl⟩ := h
  exact Nat.and_pow_two_sub_one_eq_mod x t

theorem probe_bridge (cap x i : Nat) (h : ∃ t, cap = 2 ^ t) :
    ((x &&& (cap - 1)) + i) &&& (cap - 1) = (x + i) % cap := by
  rw [mask_mod cap x h, mask_mod cap _ h, Nat.mod_add_mod]

theorem probe_inj (cap x i1 i2 : Nat) (h1 : i1 < cap) (h2 : i2 < cap)
    (he : (x + i1) % cap = (x + i2) % cap) : i1 = i2 := by
  have hm : i1 ≡ i2 [MOD cap] := Nat.ModEq.add_left_cancel (Nat.ModEq.refl x) he
  have := hm.eq_of_lt_of_lt h1 h2
  exact this

theorem probe_surj (cap x j : Nat) (hj : j < cap) :
    ∃ d, d < cap ∧ (x + d) % cap = j := by
  have hpos : 0 < cap := by omega
  have hx := Nat.mod_lt x hpos
  rcases le_or_lt (x % cap) j with hle | hlt
  · refine ⟨j - x % cap, by omega, ?_⟩
    rw [← Nat.mod_add_mod]
    have : x % cap + (j - x % cap) = j := by omega
    rw [this, Nat.mod_eq_of_lt hj]
  · refine ⟨cap + j - x % cap, by omega, ?_⟩
    rw [← Nat.mod_add_mod]
    have : x % cap + (cap + j - x % cap) = cap + j := by omega
    rw [this, Nat.add_mod_left, Nat.mod_eq_of_lt hj]

theorem cat_split (e : HashEntry) :
    (if isLiveB e then 1 else 0) + (if isTombB e then 1 else 0) +
      (if isEmptyB e then 1 else 0) = 1 := by
  by_cases h1 : e.key = HASH_EMPTY_KEY
  · simp [isLiveB, isTombB, isEmptyB, h1, HASH_EMPTY_KEY, HASH_TOMBSTONE]
  · by_cases h2 : e.key = HASH_TOMBSTONE
    · simp [isLiveB, isTombB, isEmptyB, h1, h2, HASH_EMPTY_KEY, HASH_TOMBSTONE]
    · simp [isLiveB, isTombB, isEmptyB, h1, h2]

theorem countP_partition (l : List HashEntry) :
    l.countP isLiveB + l.countP isTombB + l.countP isEmptyB = l.length := by
  induction l with
  | nil => rfl
  | cons e l ih =>
    simp only [List.countP_cons, List.length_cons]
    have := cat_split e
    omega

theorem exists_empty_slot (m : HashMap) (hwf : WF m) :
    ∃ j e, j < m.capacity ∧ m.entries[j]? = some e ∧ e.key = HASH_EMPTY_KEY := by
  have hpart := countP_partition m.entries
  have hpos : 0 < m.entries.countP isEmptyB := by
    have h1 := hwf.hsize
    have h2 := hwf.htomb
    have h3 := hwf.hslack
    have h4 := hwf.hlen
    omega
  obtain ⟨e, hmem, he⟩ := List.countP_pos_iff.mp hpos
  obtain ⟨j, hj, hje⟩ := List.getElem_of_mem hmem
  refine ⟨j, e, ?_, ?_, ?_⟩
  · rw [← hwf.hlen]
    exact hj
  · rw [List.getElem?_eq_getElem hj, hje]
  · unfold isEmptyB at he
    exact beq_iff_eq.mp he

/-! ### Correctness of the lookup probe loop -/

theorem getLoop_sound (l : List HashEntry) (mask idx key : Nat) :
    ∀ (steps i j : Nat), getLoop l mask idx key i steps = some j →
      ∃ e, l[j]? = some e ∧ e.key = key := by
  intro steps
  induction steps with
  | zero =>
    intro i j h
    simp [getLoop] at h
  | succ st ih =>
    intro i j h
    simp only [getLoop] at h
    split at h
    · cases h
    · rename_i e he
      split at h
      · rename_i hk
        injection h with h2
        subst h2
        exact ⟨e, he, hk⟩
      · split at h
        · cases h
        · exact ih (i + 1) j h

theorem getLoop_reaches (l : List HashEntry) (cap x key D j : Nat)
    (hcapl : l.length = cap) (hpow : ∃ t, cap = 2 ^ t)
    (hD : D < cap) (hjD : (x + D) % cap = j)
    (hj : ∃ e, l[j]? = some e ∧ e.key = key)
    (hpre : ∀ d, d < D → ∀ e2, l[(x + d) % cap]? = some e2 →
      e2.key ≠ HASH_EMPTY_KEY ∧ e2.key ≠ key) :
    ∀ (steps i : Nat), i + steps = cap → i ≤ D →
      getLoop l (cap - 1) (x &&& (cap - 1)) key i steps = some j := by
  intro steps
  induction steps with
  | zero =>
    intro i h0 hiD
    omega
  | succ st ih =>
    intro i hsum hiD
    have hbridge : ((x &&& (cap - 1)) + i) &&& (cap - 1) = (x + i) % cap :=
      probe_bridge cap x i hpow
    have hlt : (x + i) % cap < l.length := by
      rw [hcapl]
      exact Nat.mod_lt _ (by omega)
    simp only [getLoop, hbridge]
    obtain ⟨e2, he2⟩ : ∃ e2, l[(x + i) % cap]? = some e2 :=
      ⟨_, List.getElem?_eq_getElem hlt⟩
    simp only [he2]
    rcases Nat.lt_or_ge i D with hiD2 | hiD2
    · have hp := hpre i hiD2 e2 he2
      rw [if_neg hp.2, if_neg hp.1]
      exact ih (i + 1) (by omega) (by omega)
    · have hieq : i = D := by omega
      subst hieq
      obtain ⟨e, hje, hek⟩ := hj
      rw [hjD] at he2
      rw [hje] at he2
      injection he2 with he2
      subst he2
      rw [if_pos hek, hjD]

theorem getLoop_keys_congr (l1 l2 : List HashEntry) (mask idx key : Nat)
    (hk : ∀ p : Nat, (l1[p]?).map (fun e => e.key) = (l2[p]?).map (fun e => e.key)) :
    ∀ (steps i : Nat), getLoop l1 mask idx key i steps = getLoop l2 mask idx key i steps := by
  intro steps
  induction steps with
  | zero => intro i; rfl
  | succ st ih =>
    intro i
    simp only [getLoop]
    have hp := hk ((idx + i) &&& mask)
    cases h1 : l1[(idx + i) &&& mask]? with
    | none =>
      rw [h1] at hp
      cases h2 : l2[(idx + i) &&& mask]? with
      | none => rfl
      | some e2 =>
        rw [h2] at hp
        cases hp
    | some e1 =>
      rw [h1] at hp
      cases h2 : l2[(idx + i) &&& mask]? with
      | none =>
        rw [h2] at hp
        cases hp
      | some e2 =>
        rw [h2] at hp
        simp only [Option.map_some'] at hp
        injection hp with hp
        simp only [hp]
        by_cases hkey : e2.key = key
        · rw [if_pos hkey, if_pos hkey]
        · rw [if_neg hkey, if_neg hkey]
          by_cases hkey2 : e2.key = HASH_EMPTY_KEY
          · rw [if_pos hkey2, if_pos hkey2]
          · rw [if_neg hkey2, if_neg hkey2]
            exact ih (i + 1)

/-- Live-ness of an entry whose key is valid. -/
theorem isLiveB_of_validKey (e : HashEntry) (hk : validKey e.key) : isLiveB e = true := by
  unfold isLiveB
  unfold validKey at hk
  simp [hk.1, hk.2]

theorem getIdx_some_entry (m : HashMap) (k j : Nat)
    (h : hashmap_getIdx m k = some j) :
    ∃ e, m.entries[j]? = some e ∧ e.key = k := by
  unfold hashmap_getIdx at h
  split at h
  · cases h
  · exact getLoop_sound m.entries (m.capacity - 1) _ k m.capacity 0 j h

theorem getIdx_of_entry (m : HashMap) (hwf : WF m) (k : Nat) (hk : validKey k)
    (j : Nat) (e : HashEntry) (hje : m.entries[j]? = some e) (hek : e.key = k) :
    hashmap_getIdx m k = some j := by
  have hlive : isLiveB e = true := isLiveB_of_validKey e (hek ▸ hk)
  obtain ⟨d, hd, hdj, hpre⟩ := hwf.hchain j e hje hlive
  unfold hashmap_getIdx
  rw [if_neg (by push_neg; exact hk)]
  rw [hek] at hdj hpre
  apply getLoop_reaches m.entries m.capacity (hash_u64 k) k d j hwf.hlen hwf.hpow hd hdj
    ⟨e, hje, hek⟩ ?_ m.capacity 0 (by omega) (by omega)
  intro d2 hd2 e2 he2
  refine ⟨hpre d2 hd2 e2 he2, ?_⟩
  intro hk2
  have hne : (hash_u64 k + d2) % m.capacity ≠ j := by
    intro hcontra
    rw [← hdj] at hcontra
    have := probe_inj m.capacity (hash_u64 k) d2 d (by omega) hd hcontra
    omega
  exact hwf.hnodup _ j e2 e hne he2 hje (isLiveB_of_validKey e2 (hk2 ▸ hk)) hlive
    (by rw [hk2, hek])

theorem get_eq_some_iff (m : HashMap) (hwf : WF m) (k : Nat) (hk : validKey k)
    (e : HashEntry) :
    hashmap_get m k = some e ↔ ∃ j : Nat, m.entries[j]? = some e ∧ e.key = k := by
  constructor
  · intro h
    unfold hashmap_get at h
    cases hidx : hashmap_getIdx m k with
    | none => rw [hidx] at h; cases h
    | some j =>
      rw [hidx] at h
      simp only at h
      obtain ⟨e2, he2, hk2⟩ := getIdx_some_entry m k j hidx
      rw [he2] at h
      injection h with h
      subst h
      exact ⟨j, he2, hk2⟩
  · rintro ⟨j, hje, hek⟩
    unfold hashmap_get
    simp only [getIdx_of_entry m hwf k hk j e hje hek, hje]

theorem get_eq_none_iff (m : HashMap) (hwf : WF m) (k : Nat) (hk : validKey k) :
    hashmap_get m k = none ↔
      ∀ (j : Nat) (e : HashEntry), m.entries[j]? = some e → e.key ≠ k := by
  constructor
  · intro h j e hje hek
    rw [(get_eq_some_iff m hwf k hk e).mpr ⟨j, hje, hek⟩] at h
    cases h
  · intro h
    unfold hashmap_get
    cases hidx : hashmap_getIdx m k with
    | none => rfl
    | some j =>
      obtain ⟨e, hje, hek⟩ := getIdx_some_entry m k j hidx
      exact absurd hek (h j e hje)

theorem get_mem_iff (m : HashMap) (hwf : WF m) (k : Nat) (hk : validKey k)
    (e : HashEntry) :
    hashmap_get m k = some e ↔ e ∈ m.entries ∧ e.key = k := by
  rw [get_eq_some_iff m hwf k hk e]
  constructor
  · rintro ⟨j, hje, hek⟩
    exact ⟨List.getElem?_mem hje, hek⟩
  · rintro ⟨hmem, hek⟩
    obtain ⟨j, hj, hje⟩ := List.getElem_of_mem hmem
    exact ⟨j, by rw [List.getElem?_eq_getElem hj, hje], hek⟩

/-! ### Correctness of the insert probe loop -/

theorem putLoop_found (l : List HashEntry) (cap x key D j : Nat)
    (hcapl : l.length = cap) (hpow : ∃ t, cap = 2 ^ t)
    (hD : D < cap) (hjD : (x + D) % cap = j)
    (hj : ∃ e, l[j]? = some e ∧ e.key = key)
    (hpre : ∀ d, d < D → ∀ e2, l[(x + d) % cap]? = some e2 →
      e2.key ≠ HASH_EMPTY_KEY ∧ e2.key ≠ key) :
    ∀ (steps i : Nat) (ft : Option Nat), i + steps = cap → i ≤ D →
      putLoop l (cap - 1) (x &&& (cap - 1)) key ft i steps = some ⟨l, j, false, false⟩ := by
  intro steps
  induction steps with
  | zero =>
    intro i ft h0 hiD
    omega
  | succ st ih =>
    intro i ft hsum hiD
    have hbridge : ((x &&& (cap - 1)) + i) &&& (cap - 1) = (x + i) % cap :=
      probe_bridge cap x i hpow
    have hlt : (x + i) % cap < l.length := by
      rw [hcapl]
      exact Nat.mod_lt _ (by omega)
    obtain ⟨e2, he2⟩ : ∃ e2, l[(x + i) % cap]? = some e2 :=
      ⟨_, List.getElem?_eq_getElem hlt⟩
    simp only [putLoop, hbridge, he2]
    rcases Nat.lt_or_ge i D with hiD2 | hiD2
    · have hp := hpre i hiD2 e2 he2
      rw [if_neg hp.2, if_neg hp.1]
      exact ih (i + 1) _ (by omega) (by omega)
    · have hieq : i = D := by omega
      subst hieq
      obtain ⟨e, hje, hek⟩ := hj
      rw [hjD] at he2
      rw [hje] at he2
      injection he2 with he2
      subst he2
      rw [if_pos hek, hjD]

theorem firstTombIn_spec (l : List HashEntry) (cap x : Nat) :
    ∀ (b s : Nat), firstTombIn l cap x b = some s →
      ∃ d, d < b ∧ s = (x + d) % cap ∧
        ∃ e, l[s]? = some e ∧ e.key = HASH_TOMBSTONE := by
  intro b
  induction b with
  | zero =>
    intro s h
    simp [firstTombIn] at h
  | succ b2 ih =>
    intro s h
    cases hprev : firstTombIn l cap x b2 with
    | some s2 =>
      have h2 : firstTombIn l cap x (b2 + 1) = some s2 := by
        simp [firstTombIn, hprev]
      rw [h2] at h
      injection h with h
      subst h
      obtain ⟨d, hd, hs, he⟩ := ih s2 hprev
      exact ⟨d, by omega, hs, he⟩
    | none =>
      cases hslot : l[(x + b2) % cap]? with
      | none =>
        have h2 : firstTombIn l cap x (b2 + 1) = none := by
          simp [firstTombIn, hprev, hslot]
        rw [h2] at h
        cases h
      | some e =>
        by_cases htb : e.key = HASH_TOMBSTONE
        · have h2 : firstTombIn l cap x (b2 + 1) = some ((x + b2) % cap) := by
            simp [firstTombIn, hprev, hslot, htb]
          rw [h2] at h
          injection h with h
          subst h
          exact ⟨b2, by omega, rfl, e, hslot, htb⟩
        · have h2 : firstTombIn l cap x (b2 + 1) = none := by
            simp [firstTombIn, hprev, hslot, htb]
          rw [h2] at h
          cases h

theorem putLoop_insert (l : List HashEntry) (cap x key D : Nat)
    (hcapl : l.length = cap) (hpow : ∃ t, cap = 2 ^ t)
    (hkv : key ≠ HASH_EMPTY_KEY)
    (hD : D < cap)
    (hE : ∃ e, l[(x + D) % cap]? = some e ∧ e.key = HASH_EMPTY_KEY)
    (hpre : ∀ d, d < D → ∀ e2, l[(x + d) % cap]? = some e2 →
      e2.key ≠ HASH_EMPTY_KEY ∧ e2.key ≠ key) :
    ∀ (steps i : Nat) (ft : Option Nat), i + steps = cap → i ≤ D →
      ft = firstTombIn l cap x i →
      putLoop l (cap - 1) (x &&& (cap - 1)) key ft i steps =
        some (match firstTombIn l cap x D with
          | some s => ⟨l.set s ⟨key, 0, 0⟩, s, true, true⟩
          | none => ⟨l.set ((x + D) % cap) ⟨key, 0, 0⟩, (x + D) % cap, true, false⟩) := by
  intro steps
  induction steps with
  | zero =>
    intro i ft h0 hiD hft
    omega
  | succ st ih =>
    intro i ft hsum hiD hft
    have hbridge : ((x &&& (cap - 1)) + i) &&& (cap - 1) = (x + i) % cap :=
      probe_bridge cap x i hpow
    have hlt : (x + i) % cap < l.length := by
      rw [hcapl]
      exact Nat.mod_lt _ (by omega)
    obtain ⟨e2, he2⟩ : ∃ e2, l[(x + i) % cap]? = some e2 :=
      ⟨_, List.getElem?_eq_getElem hlt⟩
    simp only [putLoop, hbridge, he2]
    rcases Nat.lt_or_ge i D with hiD2 | hiD2
    · have hp := hpre i hiD2 e2 he2
      rw [if_neg hp.2]
      have hft2 : (if e2.key = HASH_TOMBSTONE ∧ ft = none
          then some ((x + i) % cap) else ft) = firstTombIn l cap x (i + 1) := by
        cases hcase : firstTombIn l cap x i with
        | some s =>
          rw [hft, hcase]
          rw [if_neg (by simp)]
          simp [firstTombIn, hcase]
        | none =>
          rw [hft, hcase]
          by_cases htb : e2.key = HASH_TOMBSTONE
          · rw [if_pos ⟨htb, rfl⟩]
            simp [firstTombIn, hcase, he2, htb]
          · rw [if_neg (by simp [htb])]
            simp [firstTombIn, hcase, he2, htb]
      rw [if_neg hp.1, hft2]
      exact ih (i + 1) _ (by omega) (by omega) rfl
    · have hieq : i = D := by omega
      subst hieq
      obtain ⟨e, hje, hek⟩ := hE
      rw [hje] at he2
      injection he2 with he2
      rw [if_neg (show ¬ e2.key = key by rw [← he2, hek]; exact fun hc => hkv hc.symm)]
      have hcond : ¬ (e2.key = HASH_TOMBSTONE ∧ ft = none) := by
        rw [← he2, hek]
        rintro ⟨hc, -⟩
        unfold HASH_EMPTY_KEY HASH_TOMBSTONE at hc
        omega
      rw [if_neg hcond, if_pos (by rw [← he2]; exact hek), hft]
      cases hcase : firstTombIn l cap x i <;> simp [hcase]

/-! ### Specification of the raw insert -/

theorem isLiveB_false_iff (e : HashEntry) :
    isLiveB e = false ↔ e.key = HASH_EMPTY_KEY ∨ e.key = HASH_TOMBSTONE := by
  unfold isLiveB
  by_cases h1 : e.key = HASH_EMPTY_KEY <;> by_cases h2 : e.key = HASH_TOMBSTONE <;>
    simp [h1, h2]

theorem entry_probe_data (m : HashMap) (hwf : WF m) (k : Nat) (hk : validKey k)
    (j : Nat) (e : HashEntry) (hje : m.entries[j]? = some e) (hek : e.key = k) :
    ∃ d, d < m.capacity ∧ (hash_u64 k + d) % m.capacity = j ∧
      ∀ d2, d2 < d → ∀ e2, m.entries[(hash_u64 k + d2) % m.capacity]? = some e2 →
        e2.key ≠ HASH_EMPTY_KEY ∧ e2.key ≠ k := by
  have hlive : isLiveB e = true := isLiveB_of_validKey e (hek ▸ hk)
  obtain ⟨d, hd, hdj, hpre⟩ := hwf.hchain j e hje hlive
  rw [hek] at hdj hpre
  refine ⟨d, hd, hdj, ?_⟩
  intro d2 hd2 e2 he2
  refine ⟨hpre d2 hd2 e2 he2, ?_⟩
  intro hk2
  have hne : (hash_u64 k + d2) % m.capacity ≠ j := by
    intro hcontra
    rw [← hdj] at hcontra
    have := probe_inj m.capacity (hash_u64 k) d2 d (by omega) hd hcontra
    omega
  exact hwf.hnodup _ j e2 e hne he2 hje (isLiveB_of_validKey e2 (hk2 ▸ hk)) hlive
    (by rw [hk2, hek])

theorem put_raw_present (m : HashMap) (hwf : WF m) (k : Nat) (hk : validKey k)
    (e : HashEntry) (hget : hashmap_get m k = some e) :
    ∃ j, hashmap_put_raw m k = (m, some j) ∧ m.entries[j]? = some e ∧
      hashmap_getIdx m k = some j := by
  unfold hashmap_get at hget
  cases hidx : hashmap_getIdx m k with
  | none => rw [hidx] at hget; cases hget
  | some j =>
    rw [hidx] at hget
    simp only at hget
    obtain ⟨e1, hje1, hek1⟩ := getIdx_some_entry m k j hidx
    have hee : e1 = e := by
      rw [hget] at hje1
      injection hje1 with h2
      exact h2.symm
    subst hee
    obtain ⟨d, hd, hdj, hpre⟩ := entry_probe_data m hwf k hk j e1 hget hek1
    have hloop := putLoop_found m.entries m.capacity (hash_u64 k) k d j hwf.hlen hwf.hpow
      hd hdj ⟨e1, hget, hek1⟩ hpre m.capacity 0 none (by omega) (by omega)
    refine ⟨j, ?_, hget, rfl⟩
    unfold hashmap_put_raw
    rw [hloop]
    have hm : (⟨m.entries, m.capacity, m.size + (if (false : Bool) then 1 else 0),
        m.tombstones - (if (false : Bool) then 1 else 0)⟩ : HashMap) = m := by
      cases m
      simp
    simp only
    rw [hm]

theorem put_raw_absent (m : HashMap) (hwf : WF m) (k : Nat) (hk : validKey k)
    (habs : ∀ (j : Nat) (e : HashEntry), m.entries[j]? = some e → e.key ≠ k) :
    ∃ s old ds,
      m.entries[s]? = some old ∧ isLiveB old = false ∧
        ds < m.capacity ∧ (hash_u64 k + ds) % m.capacity = s ∧
        (∀ d2, d2 < ds → ∀ e2, m.entries[(hash_u64 k + d2) % m.capacity]? = some e2 →
          e2.key ≠ HASH_EMPTY_KEY) ∧
        hashmap_put_raw m k =
          (⟨m.entries.set s ⟨k, 0, 0⟩, m.capacity, m.size + 1,
            m.tombstones - (if old.key = HASH_TOMBSTONE then 1 else 0)⟩, some s) := by
  classical
  have hexists : ∃ d, (fun d => ∃ e, m.entries[(hash_u64 k + d) % m.capacity]? = some e ∧
      e.key = HASH_EMPTY_KEY) d := by
    obtain ⟨j0, e0, hj0cap, hj0, he0⟩ := exists_empty_slot m hwf
    obtain ⟨d0, hd0, hd0j⟩ := probe_surj m.capacity (hash_u64 k) j0 hj0cap
    exact ⟨d0, e0, by rw [hd0j]; exact hj0, he0⟩
  set D := Nat.find hexists with hDdef
  obtain ⟨eE, heE, heEk⟩ := Nat.find_spec hexists
  have hmin := fun d (hd : d < D) => Nat.find_min hexists hd
  have hDlt : D < m.capacity := by
    obtain ⟨j0, e0, hj0cap, hj0, he0⟩ := exists_empty_slot m hwf
    obtain ⟨d0, hd0, hd0j⟩ := probe_surj m.capacity (hash_u64 k) j0 hj0cap
    have : D ≤ d0 := Nat.find_le ⟨e0, by rw [hd0j]; exact hj0, he0⟩
    omega
  have hpre : ∀ d, d < D → ∀ e2, m.entries[(hash_u64 k + d) % m.capacity]? = some e2 →
      e2.key ≠ HASH_EMPTY_KEY ∧ e2.key ≠ k := by
    intro d hd e2 he2
    constructor
    · intro hcontra
      exact hmin d hd ⟨e2, he2, hcontra⟩
    · exact habs _ e2 he2
  have hloop := putLoop_insert m.entries m.capacity (hash_u64 k) k D hwf.hlen hwf.hpow
    hk.1 hDlt ⟨eE, heE, heEk⟩ hpre m.capacity 0 none (by omega) (by omega) rfl
  cases hcase : firstTombIn m.entries m.capacity (hash_u64 k) D with
  | some s =>
    rw [hcase] at hloop
    obtain ⟨d, hd, hds, eT, heT, heTk⟩ := firstTombIn_spec m.entries m.capacity (hash_u64 k) D s hcase
    refine ⟨s, eT, d, heT, ?_, by omega, hds.symm, ?_, ?_⟩
    · rw [isLiveB_false_iff]
      right
      exact heTk
    · intro d2 hd2 e2 he2
      exact (hpre d2 (by omega) e2 he2).1
    · unfold hashmap_put_raw
      rw [hloop]
      simp only
      rw [if_pos heTk]
      simp
  | none =>
    rw [hcase] at hloop
    refine ⟨(hash_u64 k + D) % m.capacity, eE, D, heE, ?_, hDlt, rfl, ?_, ?_⟩
    · rw [isLiveB_false_iff]
      left
      exact heEk
    · intro d2 hd2 e2 he2
      exact (hpre d2 hd2 e2 he2).1
    · unfold hashmap_put_raw
      rw [hloop]
      simp only
      rw [if_neg (show ¬ eE.key = HASH_TOMBSTONE by
        rw [heEk]
        unfold HASH_EMPTY_KEY HASH_TOMBSTONE
        omega)]
      simp

theorem WF_insert (m : HashMap) (hwf : WF m) (k : Nat) (hk : validKey k)
    (habs : ∀ (j : Nat) (e : HashEntry), m.entries[j]? = some e → e.key ≠ k)
    (s : Nat) (old : HashEntry) (hs : m.entries[s]? = some old) (hnl : isLiveB old = false)
    (ds : Nat) (hds : ds < m.capacity) (hdss : (hash_u64 k + ds) % m.capacity = s)
    (hpre : ∀ d2, d2 < ds → ∀ e2, m.entries[(hash_u64 k + d2) % m.capacity]? = some e2 →
      e2.key ≠ HASH_EMPTY_KEY)
    (hload : 10 * (m.size + m.tombstones) ≤ 7 * m.capacity) :
    WF ⟨m.entries.set s ⟨k, 0, 0⟩, m.capacity, m.size + 1,
      m.tombstones - (if old.key = HASH_TOMBSTONE then 1 else 0)⟩ := by
  obtain ⟨hsl, hval⟩ := List.getElem?_eq_some_iff.mp hs
  have hnewlive : isLiveB ⟨k, 0, 0⟩ = true := isLiveB_of_validKey ⟨k, 0, 0⟩ hk
  have hnewtomb : isTombB ⟨k, 0, 0⟩ = false := by
    simp [isTombB, hk.2]
  refine ⟨?_, ?_, ?_, ?_, ?_, ?_, ?_, ?_⟩
  · simp only [List.length_set]
    exact hwf.hlen
  · exact hwf.hpow
  · exact hwf.hcap
  · simp only [List.countP_set _ _ _ _ hsl, hval, hnl, hnewlive]
    have := hwf.hsize
    simp only [Bool.false_eq_true, if_false, if_true]
    omega
  · simp only [List.countP_set _ _ _ _ hsl, hval, hnewtomb]
    have h1 : (if isTombB old = true then 1 else 0) =
        (if old.key = HASH_TOMBSTONE then 1 else 0) := by
      by_cases h : old.key = HASH_TOMBSTONE <;> simp [isTombB, h]
    have h2 := hwf.htomb
    have h3 : m.entries.countP isTombB ≥ (if old.key = HASH_TOMBSTONE then 1 else 0) := by
      by_cases h : old.key = HASH_TOMBSTONE
      · simp only [h, if_true]
        have : 0 < m.entries.countP isTombB := by
          rw [List.countP_pos_iff]
          exact ⟨old, List.getElem?_mem hs, by simp [isTombB, h]⟩
        omega
      · simp [h]
    simp only [Bool.false_eq_true, if_false]
    omega
  · intro i j ei ej hne hi hj li lj
    rcases eq_or_ne i s with rfl | his
    · have hie : ei = ⟨k, 0, 0⟩ := by
        rw [List.getElem?_set_self', List.getElem?_eq_getElem hsl] at hi
        simp at hi
        exact hi.symm
      have hje : m.entries[j]? = some ej := by
        rw [List.getElem?_set_ne hne] at hj
        exact hj
      rw [hie]
      exact fun hc => habs j ej hje (by rw [← hc])
    · rcases eq_or_ne j s with rfl | hjs
      · have hje : ej = ⟨k, 0, 0⟩ := by
          rw [List.getElem?_set_self', List.getElem?_eq_getElem hsl] at hj
          simp at hj
          exact hj.symm
        have hie : m.entries[i]? = some ei := by
          rw [List.getElem?_set_ne (Ne.symm his)] at hi
          exact hi
        rw [hje]
        exact fun hc => habs i ei hie hc
      · have hie : m.entries[i]? = some ei := by
          rw [List.getElem?_set_ne (Ne.symm his)] at hi
          exact hi
        have hje : m.entries[j]? = some ej := by
          rw [List.getElem?_set_ne (Ne.symm hjs)] at hj
          exact hj
        exact hwf.hnodup i j ei ej hne hie hje li lj
  · intro j2 e2 hj2 hl2
    rcases eq_or_ne j2 s with rfl | hj2s
    · have he2 : e2 = ⟨k, 0, 0⟩ := by
        rw [List.getElem?_set_self', List.getElem?_eq_getElem hsl] at hj2
        simp at hj2
        exact hj2.symm
      subst he2
      refine ⟨ds, hds, ?_, ?_⟩
      · exact hdss
      · intro d2 hd2 e3 he3
        have hne : (hash_u64 k + d2) % m.capacity ≠ j2 := by
          intro hcontra
          rw [← hdss] at hcontra
          have := probe_inj m.capacity (hash_u64 k) d2 ds (by omega) hds hcontra
          omega
        rw [List.getElem?_set_ne ?hne2] at he3
        case hne2 => exact fun hc => hne hc.symm
        exact hpre d2 hd2 e3 he3
    · have hj2e : m.entries[j2]? = some e2 := by
        rw [List.getElem?_set_ne (Ne.symm hj2s)] at hj2
        exact hj2
      obtain ⟨d, hd, hdj, hpre2⟩ := hwf.hchain j2 e2 hj2e hl2
      refine ⟨d, hd, hdj, ?_⟩
      intro d2 hd2 e3 he3
      rcases eq_or_ne ((hash_u64 e2.key + d2) % m.capacity) s with heq | hneq
      · rw [heq, List.getElem?_set_self', List.getElem?_eq_getElem hsl] at he3
        simp at he3
        rw [← he3]
        exact hk.1
      · rw [List.getElem?_set_ne (Ne.symm hneq)] at he3
        exact hpre2 d2 hd2 e3 he3
  · have h1 := hwf.hslack
    have h2 := hwf.hcap
    simp only
    omega

theorem validKey_of_isLiveB (e : HashEntry) (h : isLiveB e = true) : validKey e.key := by
  unfold isLiveB at h
  unfold validKey
  constructor
  · intro hc
    simp [hc] at h
  · intro hc
    simp [hc] at h

theorem get_eq_of_entries_agree (m m2 : HashMap) (hwfm : WF m) (hwfm2 : WF m2)
    (k : Nat) (hk : validKey k)
    (hagree : ∀ (j : Nat) (e : HashEntry), e.key = k →
      (m.entries[j]? = some e ↔ m2.entries[j]? = some e)) :
    hashmap_get m2 k = hashmap_get m k := by
  cases hget : hashmap_get m k with
  | some e =>
    obtain ⟨j, hje, hek⟩ := (get_eq_some_iff m hwfm k hk e).mp hget
    exact (get_eq_some_iff m2 hwfm2 k hk e).mpr ⟨j, (hagree j e hek).mp hje, hek⟩
  | none =>
    rw [get_eq_none_iff m2 hwfm2 k hk]
    intro j e hje hek
    exact (get_eq_none_iff m hwfm k hk).mp hget j e ((hagree j e hek).mpr hje) hek

theorem WF_set_value (m : HashMap) (hwf : WF m) (j : Nat) (e enew : HashEntry)
    (hj : m.entries[j]? = some e) (hkey : enew.key = e.key) :
    WF { m with entries := m.entries.set j enew } := by
  obtain ⟨hjl, hval⟩ := List.getElem?_eq_some_iff.mp hj
  have hlive : isLiveB enew = isLiveB e := by
    unfold isLiveB
    rw [hkey]
  have htombeq : isTombB enew = isTombB e := by
    unfold isTombB
    rw [hkey]
  refine ⟨?_, hwf.hpow, hwf.hcap, ?_, ?_, ?_, ?_, hwf.hslack⟩
  · simp only [List.length_set]
    exact hwf.hlen
  · simp only [List.countP_set _ _ _ _ hjl, hval, hlive]
    have := hwf.hsize
    by_cases hc : isLiveB e = true
    · simp only [hc, if_true]
      have hpos : 0 < m.entries.countP isLiveB := by
        rw [List.countP_pos_iff]
        exact ⟨e, List.getElem?_mem hj, hc⟩
      omega
    · have hc2 : isLiveB e = false := by simpa using hc
      simp only [hc2, Bool.false_eq_true, if_false]
      omega
  · simp only [List.countP_set _ _ _ _ hjl, hval, htombeq]
    have := hwf.htomb
    by_cases hc : isTombB e = true
    · simp only [hc, if_true]
      have hpos : 0 < m.entries.countP isTombB := by
        rw [List.countP_pos_iff]
        exact ⟨e, List.getElem?_mem hj, hc⟩
      omega
    · have hc2 : isTombB e = false := by simpa using hc
      simp only [hc2, Bool.false_eq_true, if_false]
      omega
  · intro i1 j1 ei ej hne hi1 hj1 li lj
    by_cases hi1j : i1 = j
    · subst hi1j
      have hie : ei = enew := by
        rw [List.getElem?_set_self', List.getElem?_eq_getElem hjl] at hi1
        simp at hi1
        exact hi1.symm
      have hje1 : m.entries[j1]? = some ej := by
        rw [List.getElem?_set_ne hne] at hj1
        exact hj1
      rw [hie, hkey]
      exact hwf.hnodup i1 j1 e ej hne hj hje1 (by rw [← hlive, ← hie]; exact li) lj
    · by_cases hj1j : j1 = j
      · subst hj1j
        have hje : ej = enew := by
          rw [List.getElem?_set_self', List.getElem?_eq_getElem hjl] at hj1
          simp at hj1
          exact hj1.symm
        have hie1 : m.entries[i1]? = some ei := by
          rw [List.getElem?_set_ne (fun hc => hi1j hc.symm)] at hi1
          exact hi1
        rw [hje, hkey]
        exact hwf.hnodup i1 j1 ei e hne hie1 hj li (by rw [← hlive, ← hje]; exact lj)
      · have hie1 : m.entries[i1]? = some ei := by
          rw [List.getElem?_set_ne (fun hc => hi1j hc.symm)] at hi1
          exact hi1
        have hje1 : m.entries[j1]? = some ej := by
          rw [List.getElem?_set_ne (fun hc => hj1j hc.symm)] at hj1
          exact hj1
        exact hwf.hnodup i1 j1 ei ej hne hie1 hje1 li lj
  · intro j2 e2 hj2 hl2
    by_cases hj2j : j2 = j
    · subst hj2j
      have he2 : e2 = enew := by
        rw [List.getElem?_set_self', List.getElem?_eq_getElem hjl] at hj2
        simp at hj2
        exact hj2.symm
      obtain ⟨d, hd, hdj, hpre⟩ := hwf.hchain j2 e hj (by rw [← hlive, ← he2]; exact hl2)
      refine ⟨d, hd, ?_, ?_⟩
      · rw [he2, hkey]
        exact hdj
      · intro d2 hd2 e3 he3
        rw [he2, hkey] at he3
        by_cases hps : (hash_u64 e.key + d2) % m.capacity = j2
        · rw [hps, List.getElem?_set_self', List.getElem?_eq_getElem hjl] at he3
          simp at he3
          rw [← he3, hkey]
          have : validKey e.key := by
            apply validKey_of_isLiveB
            rw [← hlive, ← he2]
            exact hl2
          exact this.1
        · rw [List.getElem?_set_ne (fun hc => hps hc.symm)] at he3
          exact hpre d2 hd2 e3 he3
    · have hj2e : m.entries[j2]? = some e2 := by
        rw [List.getElem?_set_ne (fun hc => hj2j hc.symm)] at hj2
        exact hj2
      obtain ⟨d, hd, hdj, hpre⟩ := hwf.hchain j2 e2 hj2e hl2
      refine ⟨d, hd, hdj, ?_⟩
      intro d2 hd2 e3 he3
      by_cases hps : (hash_u64 e2.key + d2) % m.capacity = j
      · rw [hps, List.getElem?_set_self', List.getElem?_eq_getElem hjl] at he3
        simp at he3
        rw [← he3, hkey]
        have hprev := hpre d2 hd2 e (by rw [hps]; exact hj)
        exact hprev
      · rw [List.getElem?_set_ne (fun hc => hps hc.symm)] at he3
        exact hpre d2 hd2 e3 he3

theorem get_set_value_self (m : HashMap) (hwf : WF m) (j : Nat) (e enew : HashEntry)
    (hj : m.entries[j]? = some e) (hkey : enew.key = e.key) (hk : validKey e.key) :
    hashmap_get { m with entries := m.entries.set j enew } e.key = some enew := by
  obtain ⟨hjl, _⟩ := List.getElem?_eq_some_iff.mp hj
  apply (get_eq_some_iff _ (WF_set_value m hwf j e enew hj hkey) e.key hk enew).mpr
  refine ⟨j, ?_, hkey⟩
  rw [List.getElem?_set_self', List.getElem?_eq_getElem hjl]
  rfl

theorem get_set_value_frame (m : HashMap) (hwf : WF m) (j : Nat) (e enew : HashEntry)
    (hj : m.entries[j]? = some e) (hkey : enew.key = e.key)
    (k2 : Nat) (hk2 : validKey k2) (hne : k2 ≠ e.key) :
    hashmap_get { m with entries := m.entries.set j enew } k2 = hashmap_get m k2 := by
  apply get_eq_of_entries_agree m _ hwf (WF_set_value m hwf j e enew hj hkey) k2 hk2
  intro j2 e3 hek3
  by_cases hj2j : j2 = j
  · subst hj2j
    constructor
    · intro h3
      rw [hj] at h3
      injection h3 with h3
      rw [← h3] at hek3
      exact absurd hek3.symm hne
    · intro h3
      obtain ⟨hjl, _⟩ := List.getElem?_eq_some_iff.mp hj
      rw [List.getElem?_set_self', List.getElem?_eq_getElem hjl] at h3
      simp at h3
      rw [← h3, hkey] at hek3
      exact absurd hek3.symm hne
  · rw [List.getElem?_set_ne (fun hc => hj2j hc.symm)]

/-! ### Correctness of grow-and-rehash -/

theorem countP_replicate_false (n : Nat) (a : HashEntry) (p : HashEntry → Bool)
    (ha : p a = false) : (List.replicate n a).countP p = 0 := by
  induction n with
  | zero => rfl
  | succ n2 ih => simp [List.replicate_succ, List.countP_cons, ha, ih]

theorem replicate_entry_eq (cap2 j : Nat) (a e : HashEntry)
    (h : (List.replicate cap2 a)[j]? = some e) : e = a := by
  rw [List.getElem?_replicate] at h
  split at h
  · injection h with h
    exact h.symm
  · cases h

theorem isLiveB_empty : isLiveB ⟨HASH_EMPTY_KEY, 0, 0⟩ = false := by
  simp [isLiveB]

theorem isTombB_empty : isTombB ⟨HASH_EMPTY_KEY, 0, 0⟩ = false := by
  simp [isTombB, HASH_EMPTY_KEY, HASH_TOMBSTONE]

theorem WF_fresh (cap2 : Nat) (hpow : ∃ t, cap2 = 2 ^ t) (hcap : 16 ≤ cap2) :
    WF ⟨List.replicate cap2 ⟨HASH_EMPTY_KEY, 0, 0⟩, cap2, 0, 0⟩ := by
  refine ⟨?_, hpow, hcap, ?_, ?_, ?_, ?_, ?_⟩
  · simp
  · rw [countP_replicate_false _ _ _ isLiveB_empty]
  · rw [countP_replicate_false _ _ _ isTombB_empty]
  · intro i j ei ej hne hi hj li lj
    have := replicate_entry_eq cap2 i _ ei hi
    rw [this] at li
    rw [isLiveB_empty] at li
    cases li
  · intro j e hj hl
    have := replicate_entry_eq cap2 j _ e hj
    rw [this] at hl
    rw [isLiveB_empty] at hl
    cases hl
  · simp only
    omega

theorem get_fresh_none (cap2 : Nat) (hpow : ∃ t, cap2 = 2 ^ t) (hcap : 16 ≤ cap2)
    (k : Nat) (hk : validKey k) :
    hashmap_get ⟨List.replicate cap2 ⟨HASH_EMPTY_KEY, 0, 0⟩, cap2, 0, 0⟩ k = none := by
  rw [get_eq_none_iff _ (WF_fresh cap2 hpow hcap) k hk]
  intro j e hje
  have := replicate_entry_eq cap2 j _ e hje
  rw [this]
  exact fun hc => hk.1 hc.symm

theorem reinsert_fold :
    ∀ (todo : List HashEntry) (acc : HashMap),
      WF acc → acc.tombstones = 0 →
      10 * (acc.size + todo.countP isLiveB) ≤ 7 * acc.capacity →
      (∀ e ∈ todo, isLiveB e → hashmap_get acc e.key = none) →
      (∀ (i1 i2 : Nat) (e1 e2 : HashEntry), i1 ≠ i2 → todo[i1]? = some e1 →
        todo[i2]? = some e2 → isLiveB e1 → isLiveB e2 → e1.key ≠ e2.key) →
      WF (todo.foldl reinsertEntry acc) ∧
        (todo.foldl reinsertEntry acc).capacity = acc.capacity ∧
        (todo.foldl reinsertEntry acc).tombstones = 0 ∧
        (todo.foldl reinsertEntry acc).size = acc.size + todo.countP isLiveB ∧
        (∀ k, validKey k →
          hashmap_get (todo.foldl reinsertEntry acc) k =
            (match todo.find? (fun e => isLiveB e && e.key == k) with
              | some e => some e
              | none => hashmap_get acc k)) ∧
        (∀ e2 ∈ (todo.foldl reinsertEntry acc).entries, e2 ∈ todo ∨ e2 ∈ acc.entries) := by
  intro todo
  induction todo with
  | nil =>
    intro acc hwf htz hbud hdisj hnd
    refine ⟨hwf, rfl, htz, by simp, ?_, fun e2 he2 => Or.inr he2⟩
    intro k hk
    simp [List.find?_nil]
  | cons e todo ih =>
    intro acc hwf htz hbud hdisj hnd
    have hndshift : ∀ (i1 i2 : Nat) (e1 e2 : HashEntry), i1 ≠ i2 → todo[i1]? = some e1 →
        todo[i2]? = some e2 → isLiveB e1 → isLiveB e2 → e1.key ≠ e2.key := by
      intro i1 i2 e1 e2 hne12 h1 h2 l1 l2
      exact hnd (i1 + 1) (i2 + 1) e1 e2 (by omega)
        (by rw [List.getElem?_cons_succ]; exact h1)
        (by rw [List.getElem?_cons_succ]; exact h2) l1 l2
    rw [List.foldl_cons]
    by_cases hlv : isLiveB e = true
    · have hkv : validKey e.key := validKey_of_isLiveB e hlv
      have hget0 : hashmap_get acc e.key = none := hdisj e (List.mem_cons_self e todo) hlv
      have habs := (get_eq_none_iff acc hwf _ hkv).mp hget0
      obtain ⟨s, old, ds, hs, hnl, hds, hdss, hpres, hput⟩ :=
        put_raw_absent acc hwf e.key hkv habs
      obtain ⟨hsl, hsv⟩ := List.getElem?_eq_some_iff.mp hs
      have hcnt : ((e :: todo).countP isLiveB) = todo.countP isLiveB + 1 := by
        simp [List.countP_cons, hlv]
      have hload0 : 10 * (acc.size + acc.tombstones) ≤ 7 * acc.capacity := by
        rw [hcnt] at hbud
        rw [htz]
        omega
      have hwf1 := WF_insert acc hwf e.key hkv habs s old hs hnl ds hds hdss hpres hload0
      have heta : (⟨e.key, e.n, e.w⟩ : HashEntry) = e := by
        cases e
        rfl
      have hstep : reinsertEntry acc e =
          ⟨acc.entries.set s e, acc.capacity, acc.size + 1, 0⟩ := by
        unfold reinsertEntry
        rw [if_neg (by push_neg; exact hkv)]
        rw [hput]
        simp only
        rw [List.set_set, heta, htz]
        simp
      set acc1 : HashMap := ⟨acc.entries.set s ⟨e.key, 0, 0⟩, acc.capacity,
        acc.size + 1, acc.tombstones - (if old.key = HASH_TOMBSTONE then 1 else 0)⟩
        with hacc1def
      have hs1 : acc1.entries[s]? = some ⟨e.key, 0, 0⟩ := by
        show (acc.entries.set s ⟨e.key, 0, 0⟩)[s]? = some ⟨e.key, 0, 0⟩
        rw [List.getElem?_set_self', List.getElem?_eq_getElem hsl]
        rfl
      have hwf2 := WF_set_value acc1 hwf1 s ⟨e.key, 0, 0⟩ e hs1 rfl
      have hacc2 : ({ acc1 with entries := acc1.entries.set s e } : HashMap) =
          ⟨acc.entries.set s e, acc.capacity, acc.size + 1, 0⟩ := by
        show (⟨(acc.entries.set s ⟨e.key, 0, 0⟩).set s e, acc.capacity, acc.size + 1,
          acc.tombstones - (if old.key = HASH_TOMBSTONE then 1 else 0)⟩ : HashMap) = _
        rw [List.set_set, htz]
        simp
      have hwfm : WF ⟨acc.entries.set s e, acc.capacity, acc.size + 1, 0⟩ := by
        rw [← hacc2]
        exact hwf2
      have hgetself : hashmap_get ⟨acc.entries.set s e, acc.capacity, acc.size + 1, 0⟩
          e.key = some e := by
        have h1 := get_set_value_self acc1 hwf1 s ⟨e.key, 0, 0⟩ e hs1 rfl hkv
        rw [hacc2] at h1
        exact h1
      have hframe1 : ∀ k2, validKey k2 → k2 ≠ e.key →
          hashmap_get acc1 k2 = hashmap_get acc k2 := by
        intro k2 hk2 hne2
        apply get_eq_of_entries_agree acc acc1 hwf hwf1 k2 hk2
        intro j2 e3 hek3
        by_cases hj2s : j2 = s
        · subst hj2s
          constructor
          · intro h3
            rw [hs] at h3
            injection h3 with h3
            rw [← h3] at hek3
            rw [isLiveB_false_iff] at hnl
            rcases hnl with hc | hc <;> rw [hc] at hek3
            · exact absurd hek3.symm hk2.1
            · exact absurd hek3.symm hk2.2
          · intro h3
            have h3b : (acc.entries.set j2 ⟨e.key, 0, 0⟩)[j2]? = some e3 := h3
            rw [List.getElem?_set_self', List.getElem?_eq_getElem hsl] at h3b
            simp at h3b
            rw [← h3b] at hek3
            exact absurd hek3.symm hne2
        · show acc.entries[j2]? = some e3 ↔ (acc.entries.set s ⟨e.key, 0, 0⟩)[j2]? = some e3
          rw [List.getElem?_set_ne (fun hc => hj2s hc.symm)]
      have hframe : ∀ k2, validKey k2 → k2 ≠ e.key →
          hashmap_get ⟨acc.entries.set s e, acc.capacity, acc.size + 1, 0⟩ k2 =
            hashmap_get acc k2 := by
        intro k2 hk2 hne2
        have h1 := get_set_value_frame acc1 hwf1 s ⟨e.key, 0, 0⟩ e hs1 rfl k2 hk2 hne2
        rw [hacc2] at h1
        rw [h1]
        exact hframe1 k2 hk2 hne2
      rw [hstep]
      have hbud2 : 10 * ((⟨acc.entries.set s e, acc.capacity, acc.size + 1, 0⟩ :
          HashMap).size + todo.countP isLiveB) ≤
          7 * (⟨acc.entries.set s e, acc.capacity, acc.size + 1, 0⟩ : HashMap).capacity := by
        simp only
        rw [hcnt] at hbud
        omega
      have hdisj2 : ∀ e3 ∈ todo, isLiveB e3 →
          hashmap_get ⟨acc.entries.set s e, acc.capacity, acc.size + 1, 0⟩ e3.key = none := by
        intro e3 hm3 hl3
        obtain ⟨i3, hi3lt, hi3⟩ := List.getElem_of_mem hm3
        have hne3 : e3.key ≠ e.key :=
          hnd (i3 + 1) 0 e3 e (by omega)
            (by rw [List.getElem?_cons_succ, List.getElem?_eq_getElem hi3lt, hi3])
            List.getElem?_cons_zero hl3 hlv
        rw [hframe e3.key (validKey_of_isLiveB e3 hl3) hne3]
        exact hdisj e3 (List.mem_cons_of_mem e hm3) hl3
      obtain ⟨hw, hcap2, htz2, hsz2, hlook2, hpres2⟩ :=
        ih ⟨acc.entries.set s e, acc.capacity, acc.size + 1, 0⟩ hwfm rfl hbud2 hdisj2 hndshift
      refine ⟨hw, by rw [hcap2], htz2, ?_, ?_, ?_⟩
      · rw [hsz2, hcnt]
        simp only
        omega
      · intro k hk
        rw [hlook2 k hk, List.find?_cons]
        by_cases hke : e.key = k
        · have hpe : (isLiveB e && e.key == k) = true := by
            rw [hlv, hke]
            simp
          rw [hpe]
          have hfn : todo.find? (fun e2 => isLiveB e2 && e2.key == k) = none := by
            rw [List.find?_eq_none]
            intro e3 hm3 hax
            simp only [Bool.and_eq_true, beq_iff_eq] at hax
            obtain ⟨i3, hi3lt, hi3⟩ := List.getElem_of_mem hm3
            exact hnd (i3 + 1) 0 e3 e (by omega)
              (by rw [List.getElem?_cons_succ, List.getElem?_eq_getElem hi3lt, hi3])
              List.getElem?_cons_zero hax.1 hlv (by rw [hax.2, hke])
          rw [hfn]
          simp only
          rw [← hke]
          exact hgetself
        · have hpe : (isLiveB e && e.key == k) = false := by
            simp [hke]
          rw [hpe]
          cases hfind : todo.find? (fun e2 => isLiveB e2 && e2.key == k) with
          | some e2 => simp
          | none =>
            simp only
            exact hframe k hk (fun hc => hke hc.symm)
      · intro e2 he2
        rcases hpres2 e2 he2 with h | h
        · exact Or.inl (List.mem_cons_of_mem e h)
        · rcases List.mem_or_eq_of_mem_set h with h2 | h2
          · exact Or.inr h2
          · exact Or.inl (h2 ▸ List.mem_cons_self e todo)
    · have hlf : isLiveB e = false := by
        simpa using hlv
      have hstep : reinsertEntry acc e = acc := by
        unfold reinsertEntry
        rw [isLiveB_false_iff] at hlf
        rw [if_pos hlf]
      rw [hstep]
      have hcnt : ((e :: todo).countP isLiveB) = todo.countP isLiveB := by
        simp [List.countP_cons, hlf]
      have hbud2 : 10 * (acc.size + todo.countP isLiveB) ≤ 7 * acc.capacity := by
        rw [hcnt] at hbud
        exact hbud
      obtain ⟨hw, hcap2, htz2, hsz2, hlook2, hpres2⟩ :=
        ih acc hwf htz hbud2 (fun e3 hm3 hl3 => hdisj e3 (List.mem_cons_of_mem e hm3) hl3)
          hndshift
      refine ⟨hw, hcap2, htz2, ?_, ?_, ?_⟩
      · rw [hsz2, hcnt]
      · intro k hk
        rw [hlook2 k hk, List.find?_cons]
        have hpe : (isLiveB e && e.key == k) = false := by
          rw [hlf]
          simp
        rw [hpe]
      · intro e2 he2
        rcases hpres2 e2 he2 with h | h
        · exact Or.inl (List.mem_cons_of_mem e h)
        · exact Or.inr h

theorem resize_spec (m : HashMap) (hwf : WF m) :
    WF (hashmap_resize m) ∧
      (hashmap_resize m).capacity = m.capacity * 2 ∧
      (hashmap_resize m).tombstones = 0 ∧
      (hashmap_resize m).size = m.size ∧
      (∀ k, validKey k → hashmap_get (hashmap_resize m) k = hashmap_get m k) ∧
      (∀ e2 ∈ (hashmap_resize m).entries, isLiveB e2 = true → e2 ∈ m.entries) := by
  have hpow2 : ∃ t, m.capacity * 2 = 2 ^ t := by
    obtain ⟨t, ht⟩ := hwf.hpow
    exact ⟨t + 1, by rw [ht, pow_succ]⟩
  have hcap2 : 16 ≤ m.capacity * 2 := by
    have := hwf.hcap
    omega
  have hwfF := WF_fresh (m.capacity * 2) hpow2 hcap2
  have hbud : 10 * ((0 : Nat) + m.entries.countP isLiveB) ≤ 7 * (m.capacity * 2) := by
    have h1 := hwf.hslack
    have h2 := hwf.hsize
    omega
  have hdisj : ∀ e ∈ m.entries, isLiveB e = true →
      hashmap_get ⟨List.replicate (m.capacity * 2) ⟨HASH_EMPTY_KEY, 0, 0⟩,
        m.capacity * 2, 0, 0⟩ e.key = none := by
    intro e hm hl
    exact get_fresh_none (m.capacity * 2) hpow2 hcap2 e.key (validKey_of_isLiveB e hl)
  obtain ⟨hw, hcap3, htz3, hsz3, hlook3, hpres3⟩ :=
    reinsert_fold m.entries
      ⟨List.replicate (m.capacity * 2) ⟨HASH_EMPTY_KEY, 0, 0⟩, m.capacity * 2, 0, 0⟩
      hwfF rfl hbud hdisj hwf.hnodup
  have hres : hashmap_resize m = m.entries.foldl reinsertEntry
      ⟨List.replicate (m.capacity * 2) ⟨HASH_EMPTY_KEY, 0, 0⟩, m.capacity * 2, 0, 0⟩ := rfl
  rw [hres]
  refine ⟨hw, by rw [hcap3], htz3, ?_, ?_, ?_⟩
  · rw [hsz3, hwf.hsize]
    simp
  · intro k hk
    rw [hlook3 k hk]
    cases hf : m.entries.find? (fun e => isLiveB e && e.key == k) with
    | some e =>
      have hp := List.find?_some hf
      simp only [Bool.and_eq_true, beq_iff_eq] at hp
      have hmem := List.mem_of_find?_eq_some hf
      have : hashmap_get m k = some e := (get_mem_iff m hwf k hk e).mpr ⟨hmem, hp.2⟩
      rw [this]
    | none =>
      have h1 : hashmap_get m k = none := by
        rw [get_eq_none_iff m hwf k hk]
        intro j e hje hek
        have hlive : isLiveB e = true := isLiveB_of_validKey e (hek ▸ hk)
        have := List.find?_eq_none.mp hf e (List.getElem?_mem hje)
        simp only [Bool.and_eq_true, beq_iff_eq] at this
        exact this ⟨hlive, hek⟩
      rw [h1]
      exact get_fresh_none (m.capacity * 2) hpow2 hcap2 k hk
  · intro e2 he2 hl2
    rcases hpres3 e2 he2 with h | h
    · exact h
    · have := List.eq_of_mem_replicate h
      rw [this] at hl2
      rw [isLiveB_empty] at hl2
      cases hl2

theorem insert_frame (m1 : HashMap) (hwf1 : WF m1) (k : Nat) (hk : validKey k)
    (s : Nat) (old : HashEntry) (hs : m1.entries[s]? = some old) (hnl : isLiveB old = false)
    (m2 : HashMap) (hwf2 : WF m2) (hent : m2.entries = m1.entries.set s ⟨k, 0, 0⟩)
    (k2 : Nat) (hk2 : validKey k2) (hne : k2 ≠ k) :
    hashmap_get m2 k2 = hashmap_get m1 k2 := by
  obtain ⟨hsl, hsv⟩ := List.getElem?_eq_some_iff.mp hs
  apply get_eq_of_entries_agree m1 m2 hwf1 hwf2 k2 hk2
  intro j2 e3 hek3
  rw [hent]
  by_cases hj2s : j2 = s
  · subst hj2s
    constructor
    · intro h3
      rw [hs] at h3
      injection h3 with h3
      rw [← h3] at hek3
      rw [isLiveB_false_iff] at hnl
      rcases hnl with hc | hc <;> rw [hc] at hek3
      · exact absurd hek3.symm hk2.1
      · exact absurd hek3.symm hk2.2
    · intro h3
      rw [List.getElem?_set_self', List.getElem?_eq_getElem hsl] at h3
      simp at h3
      rw [← h3] at hek3
      exact absurd hek3.symm hne
  · rw [List.getElem?_set_ne (fun hc => hj2s hc.symm)]

theorem hashmap_put_spec (m : HashMap) (hwf : WF m) (k : Nat) (hk : validKey k) :
    ∃ m2 j, hashmap_put m k = (m2, some j) ∧ WF m2 ∧
      (∃ e2, m2.entries[j]? = some e2 ∧ e2.key = k ∧
        hashmap_getIdx m2 k = some j ∧
        ((hashmap_get m k = none ∧ e2.n = 0 ∧ e2.w = 0) ∨ hashmap_get m k = some e2)) ∧
      (∀ k2, validKey k2 → k2 ≠ k → hashmap_get m2 k2 = hashmap_get m k2) ∧
      (∀ e3 ∈ m2.entries, isLiveB e3 = true → e3 ∈ m.entries ∨ e3 = ⟨k, 0, 0⟩) := by
  obtain ⟨m1, hm1eq, hwf1, hget1, hload1, hpres1⟩ :
      ∃ m1, hashmap_put m k = hashmap_put_raw m1 k ∧ WF m1 ∧
        (∀ k2, validKey k2 → hashmap_get m1 k2 = hashmap_get m k2) ∧
        10 * (m1.size + m1.tombstones) ≤ 7 * m1.capacity ∧
        (∀ e3 ∈ m1.entries, isLiveB e3 = true → e3 ∈ m.entries) := by
    by_cases hcond : (m.size + m.tombstones) * 10 > m.capacity * 7
    · obtain ⟨hw, hcap3, htz3, hsz3, hlook3, hpres3⟩ := resize_spec m hwf
      refine ⟨hashmap_resize m, ?_, hw, hlook3, ?_, hpres3⟩
      · unfold hashmap_put
        rw [if_neg (by push_neg; exact hk), if_pos hcond]
      · rw [hsz3, htz3, hcap3]
        have := hwf.hslack
        omega
    · refine ⟨m, ?_, hwf, fun k2 _ => rfl, by omega, fun e3 h3 _ => h3⟩
      unfold hashmap_put
      rw [if_neg (by push_neg; exact hk), if_neg hcond]
  rw [hm1eq]
  cases hg1 : hashmap_get m1 k with
  | some e =>
    obtain ⟨j, hpr, hje, hidx⟩ := put_raw_present m1 hwf1 k hk e hg1
    obtain ⟨j2, hje2, hek⟩ := (get_eq_some_iff m1 hwf1 k hk e).mp hg1
    refine ⟨m1, j, hpr, hwf1, ⟨e, hje, hek, hidx,
      Or.inr (by rw [← hget1 k hk]; exact hg1)⟩,
      fun k2 hk2 _ => hget1 k2 hk2,
      fun e3 h3 hl3 => Or.inl (hpres1 e3 h3 hl3)⟩
  | none =>
    have habs := (get_eq_none_iff m1 hwf1 k hk).mp hg1
    obtain ⟨s, old, ds, hs, hnl, hds, hdss, hprex, hput⟩ := put_raw_absent m1 hwf1 k hk habs
    obtain ⟨hsl, hsv⟩ := List.getElem?_eq_some_iff.mp hs
    rw [hput]
    have hwf2 := WF_insert m1 hwf1 k hk habs s old hs hnl ds hds hdss hprex hload1
    have hs2 : (⟨m1.entries.set s ⟨k, 0, 0⟩, m1.capacity, m1.size + 1,
        m1.tombstones - (if old.key = HASH_TOMBSTONE then 1 else 0)⟩ :
        HashMap).entries[s]? = some ⟨k, 0, 0⟩ := by
      show (m1.entries.set s ⟨k, 0, 0⟩)[s]? = some ⟨k, 0, 0⟩
      rw [List.getElem?_set_self', List.getElem?_eq_getElem hsl]
      rfl
    have hidx2 := getIdx_of_entry _ hwf2 k hk s ⟨k, 0, 0⟩ hs2 rfl
    refine ⟨_, s, rfl, hwf2, ⟨⟨k, 0, 0⟩, hs2, rfl, hidx2,
      Or.inl ⟨by rw [← hget1 k hk]; exact hg1, rfl, rfl⟩⟩, ?_, ?_⟩
    · intro k2 hk2 hne
      rw [insert_frame m1 hwf1 k hk s old hs hnl _ hwf2 rfl k2 hk2 hne]
      exact hget1 k2 hk2
    · intro e3 h3 hl3
      rcases List.mem_or_eq_of_mem_set h3 with h4 | h4
      · exact Or.inl (hpres1 e3 h4 hl3)
      · exact Or.inr h4

theorem hashmap_increment_spec (m : HashMap) (hwf : WF m) (k : Nat) (hk : validKey k)
    (win : Bool) :
    WF (hashmap_increment m k win) ∧
      (∃ n0 w0,
        ((hashmap_get m k = none ∧ n0 = 0 ∧ w0 = 0) ∨
          (∃ e0, hashmap_get m k = some e0 ∧ n0 = e0.n ∧ w0 = e0.w)) ∧
        hashmap_get (hashmap_increment m k win) k =
          some ⟨k, (n0 + 1) % M64, if win then (w0 + 1) % M64 else w0⟩) ∧
      (∀ k2, validKey k2 → k2 ≠ k →
        hashmap_get (hashmap_increment m k win) k2 = hashmap_get m k2) ∧
      (∀ e3 ∈ (hashmap_increment m k win).entries, isLiveB e3 = true →
        (∃ e4, (e4 ∈ m.entries ∨ e4 = ⟨k, 0, 0⟩) ∧ e3 = bumpEntry win e4) ∨
          e3 ∈ m.entries ∨ e3 = ⟨k, 0, 0⟩) := by
  obtain ⟨m2, j, hput, hwf2, ⟨e2, hje2, hek2, hidx2, hcases⟩, hframe, hpres⟩ :=
    hashmap_put_spec m hwf k hk
  have hstep : hashmap_increment m k win =
      { m2 with entries := m2.entries.set j (bumpEntry win e2) } := by
    unfold hashmap_increment
    rw [hput]
    simp only
    rw [hje2]
  have hkey : (bumpEntry win e2).key = e2.key := rfl
  have hwf3 : WF (hashmap_increment m k win) := by
    rw [hstep]
    exact WF_set_value m2 hwf2 j e2 (bumpEntry win e2) hje2 hkey
  refine ⟨hwf3, ?_, ?_, ?_⟩
  · refine ⟨e2.n, e2.w, ?_, ?_⟩
    · rcases hcases with ⟨hg, hn, hw⟩ | hg
      · exact Or.inl ⟨hg, hn, hw⟩
      · exact Or.inr ⟨e2, hg, rfl, rfl⟩
    · have h1 := get_set_value_self m2 hwf2 j e2 (bumpEntry win e2) hje2 hkey
        (hek2 ▸ hk)
      rw [← hstep] at h1
      rw [hek2] at h1
      rw [h1]
      unfold bumpEntry
      rw [hek2]
  · intro k2 hk2 hne
    have h1 := get_set_value_frame m2 hwf2 j e2 (bumpEntry win e2) hje2 hkey k2 hk2
      (by rw [hek2]; exact hne)
    rw [← hstep] at h1
    rw [h1]
    exact hframe k2 hk2 hne
  · intro e3 h3 hl3
    rw [hstep] at h3
    rcases List.mem_or_eq_of_mem_set h3 with h4 | h4
    · exact Or.inr (hpres e3 h4 hl3)
    · have he2m : e2 ∈ m2.entries := List.getElem?_mem hje2
      have he2l : isLiveB e2 = true := isLiveB_of_validKey e2 (hek2 ▸ hk)
      exact Or.inl ⟨e2, hpres e2 he2m he2l, h4⟩

theorem growCap_facts : ∀ (meas initial cap : Nat), initial - cap ≤ meas → 0 < cap →
    cap ≤ growCap initial cap ∧
      (∀ t, cap = 2 ^ t → ∃ t2, growCap initial cap = 2 ^ t2) := by
  intro meas
  induction meas with
  | zero =>
    intro initial cap hm hpos
    rw [growCap, dif_neg (by omega)]
    exact ⟨le_refl _, fun t ht => ⟨t, ht⟩⟩
  | succ m2 ih =>
    intro initial cap hm hpos
    rw [growCap]
    by_cases h : 0 < cap ∧ cap < initial
    · rw [dif_pos h]
      have ih2 := ih initial (cap * 2) (by omega) (by omega)
      constructor
      · calc cap ≤ cap * 2 := by omega
          _ ≤ growCap initial (cap * 2) := ih2.1
      · intro t ht
        exact ih2.2 (t + 1) (by rw [ht, pow_succ])
    · rw [dif_neg h]
      exact ⟨le_refl _, fun t ht => ⟨t, ht⟩⟩

theorem WF_init (c : Nat) : WF (hashmap_init c) := by
  have hfacts := growCap_facts (c - 16) c 16 (by omega) (by omega)
  exact WF_fresh (growCap c 16) (hfacts.2 4 (by norm_num)) hfacts.1

/-- C9: after `hashmap_put m k`, looking the key up yields the entry the
put returned — a fresh zeroed entry when the key was absent, the existing
entry otherwise; and on a map where `k` was absent, a winning increment
followed by a losing increment leaves the entry at `n = 2, w = 1`. -/
theorem hashmap_put_get_roundtrip (m : HashMap) (k : Nat) (hwf : WF m) (hk : validKey k) :
    (∃ m2 j e2, hashmap_put m k = (m2, some j) ∧ m2.entries[j]? = some e2 ∧
      hashmap_get m2 k = some e2 ∧ e2.key = k ∧
      ((hashmap_get m k = none ∧ e2.n = 0 ∧ e2.w = 0) ∨ hashmap_get m k = some e2)) ∧
      (hashmap_get m k = none →
        hashmap_get (hashmap_increment (hashmap_increment m k true) k false) k =
          some ⟨k, 2, 1⟩) := by
  constructor
  · obtain ⟨m2, j, hput, hwf2, ⟨e2, hje2, hek2, hidx2, hcases⟩, hframe, hpres⟩ :=
      hashmap_put_spec m hwf k hk
    refine ⟨m2, j, e2, hput, hje2, ?_, hek2, hcases⟩
    simp only [hashmap_get, hidx2]
    exact hje2
  · intro hnone
    obtain ⟨hwfA, ⟨n0, w0, hc0, hgA⟩, hfrA, hprA⟩ := hashmap_increment_spec m hwf k hk true
    have hn0 : n0 = 0 ∧ w0 = 0 := by
      rcases hc0 with ⟨h1, h2, h3⟩ | ⟨e0, h1, h2⟩
      · exact ⟨h2, h3⟩
      · rw [hnone] at h1
        cases h1
    rw [hn0.1, hn0.2] at hgA
    obtain ⟨hwfB, ⟨n1, w1, hc1, hgB⟩, hfrB, hprB⟩ :=
      hashmap_increment_spec (hashmap_increment m k true) hwfA k hk false
    have hn1 : n1 = (0 + 1) % M64 ∧ w1 = (0 + 1) % M64 := by
      rcases hc1 with ⟨h1, h2, h3⟩ | ⟨e0, h1, h2, h3⟩
      · rw [hgA] at h1
        cases h1
      · rw [hgA] at h1
        injection h1 with h1
        rw [← h1] at h2 h3
        exact ⟨h2, by rw [h3]; simp⟩
    rw [hn1.1, hn1.2] at hgB
    rw [hgB]
    have hM : ((0 + 1) % M64 + 1) % M64 = 2 ∧ (0 + 1) % M64 = 1 := by
      unfold M64
      omega
    rw [hM.1, hM.2]
    simp

/-- Witness for C9 at a fresh table and key 5. -/
theorem hashmap_put_get_roundtrip_witness :
    (∃ m2 j e2, hashmap_put (hashmap_init 1) 5 = (m2, some j) ∧
      m2.entries[j]? = some e2 ∧ hashmap_get m2 5 = some e2 ∧ e2.key = 5 ∧
      ((hashmap_get (hashmap_init 1) 5 = none ∧ e2.n = 0 ∧ e2.w = 0) ∨
        hashmap_get (hashmap_init 1) 5 = some e2)) ∧
      (hashmap_get (hashmap_init 1) 5 = none →
        hashmap_get (hashmap_increment (hashmap_increment (hashmap_init 1) 5 true) 5 false)
          5 = some ⟨5, 2, 1⟩) :=
  hashmap_put_get_roundtrip (hashmap_init 1) 5 (WF_init 1) (by decide)

theorem not_validKey_sentinel (k : Nat) (hk : ¬ validKey k) :
    k = HASH_EMPTY_KEY ∨ k = HASH_TOMBSTONE := by
  unfold validKey at hk
  push_neg at hk
  by_cases h1 : k = HASH_EMPTY_KEY
  · exact Or.inl h1
  · exact Or.inr (hk h1)

theorem put_sentinel_id (m : HashMap) (k : Nat) (hk : ¬ validKey k) :
    hashmap_put m k = (m, none) := by
  unfold hashmap_put
  rw [if_pos (not_validKey_sentinel k hk)]

theorem inc_sentinel_id (m : HashMap) (k : Nat) (win : Bool) (hk : ¬ validKey k) :
    hashmap_increment m k win = m := by
  unfold hashmap_increment
  rw [put_sentinel_id m k hk]

theorem reachN_inv (t : Nat) (m : HashMap) (h : ReachN t m) :
    WF m ∧ (t < M64 → ∀ e ∈ m.entries, isLiveB e = true → e.w ≤ e.n ∧ e.n ≤ t) := by
  induction h with
  | init c =>
    refine ⟨WF_init c, ?_⟩
    intro ht e he hl
    have he2 : e = ⟨HASH_EMPTY_KEY, 0, 0⟩ :=
      List.eq_of_mem_replicate (by simpa [hashmap_init] using he)
    rw [he2, isLiveB_empty] at hl
    cases hl
  | put t2 m2 k h2 ih =>
    by_cases hk : validKey k
    · obtain ⟨m3, j, hput, hwf3, _, _, hpres⟩ := hashmap_put_spec m2 ih.1 k hk
      rw [hput]
      refine ⟨hwf3, ?_⟩
      intro ht e he hl
      rcases hpres e he hl with hmem | hz
      · exact ih.2 ht e hmem hl
      · rw [hz]
        exact ⟨le_refl 0, Nat.zero_le t2⟩
    · rw [put_sentinel_id m2 k hk]
      exact ih
  | inc t2 m2 k win h2 ih =>
    by_cases hk : validKey k
    · obtain ⟨hwf3, _, _, hpr⟩ := hashmap_increment_spec m2 ih.1 k hk win
      refine ⟨hwf3, ?_⟩
      intro ht e he hl
      have ht2 : t2 < M64 := by omega
      rcases hpr e he hl with ⟨e4, he4, hbe⟩ | hmem | hz
      · have hl4 : isLiveB e4 = true := by
          rw [hbe] at hl
          simpa [isLiveB, bumpEntry] using hl
        have hbounds : e4.w ≤ e4.n ∧ e4.n ≤ t2 := by
          rcases he4 with h4m | h4z
          · exact ih.2 ht2 e4 h4m hl4
          · rw [h4z]
            exact ⟨le_refl 0, Nat.zero_le t2⟩
        rw [hbe]
        unfold bumpEntry
        simp only
        have hM : M64 = 2 ^ 64 := rfl
        have hn4 : e4.n + 1 < M64 := by omega
        rw [Nat.mod_eq_of_lt hn4]
        cases win
        · simp only [Bool.false_eq_true, if_false]
          omega
        · simp only [if_true]
          rw [Nat.mod_eq_of_lt (by omega : e4.w + 1 < M64)]
          omega
      · have := ih.2 ht2 e hmem hl
        omega
      · rw [hz]
        exact ⟨le_refl 0, Nat.zero_le (t2 + 1)⟩
    · rw [inc_sentinel_id m2 k win hk]
      refine ⟨ih.1, ?_⟩
      intro ht e he hl
      have := ih.2 (by omega) e he hl
      omega

theorem Reach_incIterN (k : Nat) (win : Bool) :
    ∀ (N : Nat) (m : HashMap), Reach m → Reach (incIterN k win N m) := by
  intro N
  induction N with
  | zero => intro m h; exact h
  | succ N2 ih =>
    intro m h
    exact ih _ (Reach.inc m k win h)

theorem incIterN_get (k : Nat) (hk : validKey k) (win : Bool) :
    ∀ (N : Nat) (m : HashMap) (n w : Nat), WF m →
      hashmap_get m k = some ⟨k, n % M64, w % M64⟩ →
      WF (incIterN k win N m) ∧
        hashmap_get (incIterN k win N m) k =
          some ⟨k, (n + N) % M64, if win then (w + N) % M64 else w % M64⟩ := by
  intro N
  induction N with
  | zero =>
    intro m n w hwf hget
    refine ⟨hwf, ?_⟩
    cases win <;> simpa using hget
  | succ N2 ih =>
    intro m n w hwf hget
    obtain ⟨hwfA, ⟨n0, w0, hc0, hgA⟩, _, _⟩ := hashmap_increment_spec m hwf k hk win
    have hn0 : n0 = n % M64 ∧ w0 = w % M64 := by
      rcases hc0 with ⟨h1, _, _⟩ | ⟨e0, h1, h2, h3⟩
      · rw [hget] at h1
        cases h1
      · rw [hget] at h1
        injection h1 with h1
        rw [← h1] at h2 h3
        exact ⟨h2, h3⟩
    rw [hn0.1, hn0.2] at hgA
    show WF (incIterN k win N2 (hashmap_increment m k win)) ∧
      hashmap_get (incIterN k win N2 (hashmap_increment m k win)) k = _
    cases win
    · have hgA2 : hashmap_get (hashmap_increment m k false) k =
          some ⟨k, (n + 1) % M64, w % M64⟩ := by
        rw [hgA]
        simp [Nat.mod_add_mod]
      have hres := ih (hashmap_increment m k false) (n + 1) w hwfA hgA2
      refine ⟨hres.1, ?_⟩
      rw [hres.2]
      have : n + 1 + N2 = n + (N2 + 1) := by omega
      rw [this]
      simp
    · have hgA2 : hashmap_get (hashmap_increment m k true) k =
          some ⟨k, (n + 1) % M64, (w + 1) % M64⟩ := by
        rw [hgA]
        simp [Nat.mod_add_mod]
      have hres := ih (hashmap_increment m k true) (n + 1) (w + 1) hwfA hgA2
      refine ⟨hres.1, ?_⟩
      rw [hres.2]
      have h1 : n + 1 + N2 = n + (N2 + 1) := by omega
      have h2 : w + 1 + N2 = w + (N2 + 1) := by omega
      rw [h1, h2]
      simp

/-- C8: counterexample.  One winning increment followed by `2^64 - 1`
losing increments on key 0 wraps the 64-bit game counter back to 0 while
the win counter stays 1, so a reachable store holds a live entry with
`w > n`. -/
theorem hashmap_w_le_n_counterexample :
    ∃ (m : HashMap) (e : HashEntry), Reach m ∧ e ∈ m.entries ∧
      isLiveB e = true ∧ e.n < e.w := by
  have hv0 : validKey 0 := by decide
  have hwf0 : WF (hashmap_init 1) := WF_init 1
  have hcap : growCap 1 16 = 16 := by
    rw [growCap, dif_neg (by omega)]
  have hinit : hashmap_init 1 = ⟨List.replicate 16 ⟨HASH_EMPTY_KEY, 0, 0⟩, 16, 0, 0⟩ := by
    simp only [hashmap_init]
    rw [hcap]
  have hg0 : hashmap_get (hashmap_init 1) 0 = none := by
    rw [hinit]
    exact get_fresh_none 16 ⟨4, by norm_num⟩ (by omega) 0 hv0
  obtain ⟨hwfA, ⟨n0, w0, hc0, hgA⟩, _, _⟩ :=
    hashmap_increment_spec (hashmap_init 1) hwf0 0 hv0 true
  have hn0 : n0 = 0 ∧ w0 = 0 := by
    rcases hc0 with ⟨_, h2, h3⟩ | ⟨e0, h1, _⟩
    · exact ⟨h2, h3⟩
    · rw [hg0] at h1
      cases h1
  rw [hn0.1, hn0.2] at hgA
  have hgA2 : hashmap_get (hashmap_increment (hashmap_init 1) 0 true) 0 =
      some ⟨0, 1 % M64, 1 % M64⟩ := by
    rw [hgA]
    simp
  obtain ⟨hwfB, hgB⟩ := incIterN_get 0 hv0 false (M64 - 1)
    (hashmap_increment (hashmap_init 1) 0 true) 1 1 hwfA hgA2
  have hmod : (1 + (M64 - 1)) % M64 = 0 ∧ 1 % M64 = 1 := by
    unfold M64
    omega
  rw [hmod.1, hmod.2] at hgB
  obtain ⟨hmem, _⟩ := (get_mem_iff _ hwfB 0 hv0 ⟨0, 0, 1⟩).mp hgB
  refine ⟨_, ⟨0, 0, 1⟩, ?_, hmem, by decide, by decide⟩
  exact Reach_incIterN 0 false (M64 - 1) _ (Reach.inc _ 0 true (Reach.init 1))

/-- C8 (amended): on every store reachable with fewer than `2^64`
increments, every live entry satisfies `w ≤ n`; the unrestricted claim
fails because the 64-bit counters wrap. -/
theorem hashmap_w_le_n_invariant (t : Nat) (m : HashMap) (h : ReachN t m) (ht : t < M64) :
    ∀ e ∈ m.entries, isLiveB e = true → e.w ≤ e.n :=
  fun e he hl => ((reachN_inv t m h).2 ht e he hl).1

/-- Witness for C8 at two increments on a fresh table. -/
theorem hashmap_w_le_n_invariant_witness :
    ReachN 2 (hashmap_increment (hashmap_increment (hashmap_init 1) 5 true) 5 false) ∧
      2 < M64 ∧
      ∀ e ∈ (hashmap_increment (hashmap_increment (hashmap_init 1) 5 true) 5 false).entries,
        isLiveB e = true → e.w ≤ e.n :=
  ⟨ReachN.inc 1 _ 5 false (ReachN.inc 0 _ 5 true (ReachN.init 1)), by decide,
    hashmap_w_le_n_invariant 2 _
      (ReachN.inc 1 _ 5 false (ReachN.inc 0 _ 5 true (ReachN.init 1))) (by decide)⟩

theorem pair_key_comm (a b : Nat) : pair_key a b = pair_key b a := by
  unfold pair_key
  rcases Nat.lt_trichotomy a b with h | h | h
  · rw [if_neg (by omega), if_pos (by omega)]
  · subst h
    rfl
  · rw [if_pos (by omega), if_neg (by omega)]

theorem cDedup_spec : ∀ (l acc : List Nat), acc.Nodup →
    (acc.toFinset ∪ l.toFinset).card ≤ MAX_GAME_CARDS →
    (cDedup acc l).Nodup ∧ ∀ a, a ∈ cDedup acc l ↔ a ∈ acc ∨ a ∈ l := by
  intro l
  induction l with
  | nil =>
    intro acc hnd _
    refine ⟨hnd, ?_⟩
    intro a
    simp [cDedup]
  | cons c rest ih =>
    intro acc hnd hcard
    by_cases hlen : acc.length < MAX_GAME_CARDS
    · by_cases hc : c ∈ acc
      · have hstep : cDedup acc (c :: rest) = cDedup acc rest := by
          simp only [cDedup, if_pos hlen, if_pos hc]
        have hsub : acc.toFinset ∪ rest.toFinset ⊆ acc.toFinset ∪ (c :: rest).toFinset := by
          intro x hx
          simp only [Finset.mem_union, List.mem_toFinset, List.mem_cons] at hx ⊢
          tauto
        obtain ⟨h1, h2⟩ := ih acc hnd (le_trans (Finset.card_le_card hsub) hcard)
        rw [hstep]
        refine ⟨h1, ?_⟩
        intro a
        rw [h2 a]
        constructor
        · rintro (h | h)
          · exact Or.inl h
          · exact Or.inr (List.mem_cons_of_mem c h)
        · rintro (h | h)
          · exact Or.inl h
          · rcases List.mem_cons.mp h with rfl | h3
            · exact Or.inl hc
            · exact Or.inr h3
      · have hstep : cDedup acc (c :: rest) = cDedup (acc ++ [c]) rest := by
          simp only [cDedup, if_pos hlen, if_neg hc]
        have hnd2 : (acc ++ [c]).Nodup := by
          rw [List.nodup_append]
          refine ⟨hnd, List.nodup_singleton c, ?_⟩
          intro x hx hxc
          rw [List.mem_singleton] at hxc
          exact hc (hxc ▸ hx)
        have hfin : (acc ++ [c]).toFinset ∪ rest.toFinset =
            acc.toFinset ∪ (c :: rest).toFinset := by
          ext x
          simp only [Finset.mem_union, List.mem_toFinset, List.mem_append,
            List.mem_singleton, List.mem_cons]
          tauto
        obtain ⟨h1, h2⟩ := ih (acc ++ [c]) hnd2 (by rw [hfin]; exact hcard)
        rw [hstep]
        refine ⟨h1, ?_⟩
        intro a
        rw [h2 a]
        simp only [List.mem_append, List.mem_singleton, List.mem_cons]
        tauto
    · have hstep : cDedup acc (c :: rest) = acc := by
        simp only [cDedup, if_neg hlen]
      have hsubset : ∀ x ∈ c :: rest, x ∈ acc := by
        intro x hx
        by_contra hxa
        have h1 : acc.toFinset ⊂ acc.toFinset ∪ (c :: rest).toFinset := by
          refine ⟨Finset.subset_union_left, ?_⟩
          intro hsub
          have hx2 : x ∈ acc.toFinset :=
            hsub (Finset.mem_union_right _ (List.mem_toFinset.mpr hx))
          exact hxa (List.mem_toFinset.mp hx2)
        have h2 := Finset.card_lt_card h1
        rw [List.toFinset_card_of_nodup hnd] at h2
        omega
      rw [hstep]
      refine ⟨hnd, ?_⟩
      intro a
      constructor
      · exact Or.inl
      · rintro (h | h)
        · exact h
        · exact hsubset a h

theorem pairList_mem (K : Nat) : ∀ (l : List Nat), l.Nodup →
    (K ∈ pairList l ↔ ∃ x ∈ l, ∃ y ∈ l, x ≠ y ∧ pair_key x y = K) := by
  intro l
  induction l with
  | nil =>
    intro _
    simp [pairList]
  | cons c rest ih =>
    intro hnd
    have hcr : c ∉ rest := (List.nodup_cons.mp hnd).1
    have hndr : rest.Nodup := (List.nodup_cons.mp hnd).2
    simp only [pairList, List.mem_append, List.mem_map]
    constructor
    · rintro (⟨d, hd, hdk⟩ | h)
      · exact ⟨c, List.mem_cons_self c rest, d, List.mem_cons_of_mem c hd,
          fun he => hcr (he ▸ hd), hdk⟩
      · obtain ⟨x, hx, y, hy, hxy, hk⟩ := (ih hndr).mp h
        exact ⟨x, List.mem_cons_of_mem c hx, y, List.mem_cons_of_mem c hy, hxy, hk⟩
    · rintro ⟨x, hx, y, hy, hxy, hk⟩
      rcases List.mem_cons.mp hx with rfl | hx2
      · rcases List.mem_cons.mp hy with rfl | hy2
        · exact absurd rfl hxy
        · exact Or.inl ⟨y, hy2, hk⟩
      · rcases List.mem_cons.mp hy with rfl | hy2
        · refine Or.inl ⟨x, hx2, ?_⟩
          rw [pair_key_comm]
          exact hk
        · exact Or.inr ((ih hndr).mpr ⟨x, hx2, y, hy2, hxy, hk⟩)

theorem count_map_pair (c b : Nat) : ∀ (l : List Nat),
    (∀ d ∈ l, pair_key c d = pair_key c b ↔ d = b) →
    (l.map (fun d => pair_key c d)).count (pair_key c b) = l.count b := by
  intro l
  induction l with
  | nil =>
    intro _
    simp
  | cons d tl iht =>
    intro hiff
    have htl : ∀ x ∈ tl, pair_key c x = pair_key c b ↔ x = b :=
      fun x hx => hiff x (List.mem_cons_of_mem d hx)
    simp only [List.map_cons]
    by_cases hdb : d = b
    · subst hdb
      rw [List.count_cons_self, List.count_cons_self, iht htl]
    · have hne : pair_key c b ≠ pair_key c d :=
        fun he => hdb ((hiff d (List.mem_cons_self d tl)).mp he.symm)
      rw [List.count_cons_of_ne hne, List.count_cons_of_ne (fun he => hdb he.symm), iht htl]

theorem count_map_pair_zero (c K : Nat) (l : List Nat)
    (h : ∀ d ∈ l, pair_key c d ≠ K) :
    (l.map (fun d => pair_key c d)).count K = 0 := by
  apply List.count_eq_zero_of_not_mem
  intro hmem
  obtain ⟨d, hd, hdk⟩ := List.mem_map.mp hmem
  exact h d hd hdk

theorem pairList_count : ∀ (uniq : List Nat), uniq.Nodup →
    (∀ a ∈ uniq, ∀ b ∈ uniq, ∀ c ∈ uniq, ∀ d ∈ uniq, a ≠ b → c ≠ d →
      pair_key a b = pair_key c d → (a = c ∧ b = d) ∨ (a = d ∧ b = c)) →
    ∀ a ∈ uniq, ∀ b ∈ uniq, a ≠ b → (pairList uniq).count (pair_key a b) = 1 := by
  intro uniq
  induction uniq with
  | nil =>
    intro _ _ a ha
    cases ha
  | cons c rest ih =>
    intro hnd hinj a ha b hb hab
    have hcr : c ∉ rest := (List.nodup_cons.mp hnd).1
    have hndr : rest.Nodup := (List.nodup_cons.mp hnd).2
    have hinjr : ∀ x ∈ rest, ∀ y ∈ rest, ∀ z ∈ rest, ∀ v ∈ rest, x ≠ y → z ≠ v →
        pair_key x y = pair_key z v → (x = z ∧ y = v) ∨ (x = v ∧ y = z) :=
      fun x hx y hy z hz v hv => hinj x (List.mem_cons_of_mem c hx)
        y (List.mem_cons_of_mem c hy) z (List.mem_cons_of_mem c hz)
        v (List.mem_cons_of_mem c hv)
    have hrest_zero : ∀ x ∈ c :: rest, ∀ y ∈ c :: rest, x ≠ y → (x = c ∨ y = c) →
        (pairList rest).count (pair_key x y) = 0 := by
      intro x hx y hy hxy hone
      apply List.count_eq_zero_of_not_mem
      intro hmem
      obtain ⟨p, hp, q, hq, hpq, hpk⟩ := (pairList_mem _ rest hndr).mp hmem
      rcases hinj p (List.mem_cons_of_mem c hp) q (List.mem_cons_of_mem c hq)
          x hx y hy hpq hxy hpk with ⟨h1, h2⟩ | ⟨h1, h2⟩
      · rcases hone with hc1 | hc1
        · exact hcr ((h1.trans hc1) ▸ hp)
        · exact hcr ((h2.trans hc1) ▸ hq)
      · rcases hone with hc1 | hc1
        · exact hcr ((h2.trans hc1) ▸ hq)
        · exact hcr ((h1.trans hc1) ▸ hp)
    simp only [pairList, List.count_append]
    rcases List.mem_cons.mp ha with rfl | ha2
    · have hb2 : b ∈ rest := by
        rcases List.mem_cons.mp hb with rfl | h
        · exact absurd rfl hab
        · exact h
      have hmap : (rest.map (fun d => pair_key a d)).count (pair_key a b) = rest.count b := by
        apply count_map_pair
        intro d hd
        constructor
        · intro he
          rcases hinj a (List.mem_cons_self a rest) d (List.mem_cons_of_mem a hd)
              a (List.mem_cons_self a rest) b hb
              (fun hc2 => hcr (hc2 ▸ hd)) hab he with ⟨_, h2⟩ | ⟨h1, _⟩
          · exact h2
          · exact absurd h1 hab
        · intro he
          rw [he]
      rw [hmap, List.count_eq_one_of_mem hndr hb2,
        hrest_zero a (List.mem_cons_self a rest) b hb hab (Or.inl rfl)]
    · rcases List.mem_cons.mp hb with rfl | hb2
      · have hkk : pair_key a b = pair_key b a := pair_key_comm a b
        have hmap : (rest.map (fun d => pair_key b d)).count (pair_key b a) = rest.count a := by
          apply count_map_pair
          intro d hd
          constructor
          · intro he
            rcases hinj b (List.mem_cons_self b rest) d (List.mem_cons_of_mem b hd)
                b (List.mem_cons_self b rest) a ha
                (fun hc2 => hcr (hc2 ▸ hd)) (fun he2 => hab he2.symm) he with
              ⟨_, h2⟩ | ⟨h1, _⟩
            · exact h2
            · exact absurd h1.symm hab
          · intro he
            rw [he]
        rw [hkk, hmap, List.count_eq_one_of_mem hndr ha2,
          hrest_zero b (List.mem_cons_self b rest) a ha (fun h => hab h.symm) (Or.inl rfl)]
      · have hmap0 : (rest.map (fun d => pair_key c d)).count (pair_key a b) = 0 := by
          apply count_map_pair_zero
          intro d hd he
          rcases hinj c (List.mem_cons_self c rest) d (List.mem_cons_of_mem c hd)
              a ha b hb (fun hc2 => hcr (hc2 ▸ hd)) hab he with ⟨h1, _⟩ | ⟨h1, _⟩
          · exact hcr (h1 ▸ ha2)
          · exact hcr (h1 ▸ hb2)
        rw [hmap0, ih hndr hinjr a ha2 b hb2 hab]

theorem foldInc_spec (win : Bool) :
    ∀ (ks : List Nat) (m : HashMap), WF m → (∀ k ∈ ks, validKey k) →
      WF (ks.foldl (fun m2 c => hashmap_increment m2 c win) m) ∧
      (∀ K, validKey K → K ∉ ks →
        hashmap_get (ks.foldl (fun m2 c => hashmap_increment m2 c win) m) K =
          hashmap_get m K) ∧
      (∀ K, validKey K → K ∈ ks →
        hashmap_get (ks.foldl (fun m2 c => hashmap_increment m2 c win) m) K =
          some ⟨K, (lookN m K + ks.count K) % M64,
            if win then (lookW m K + ks.count K) % M64 else lookW m K⟩) := by
  intro ks
  induction ks with
  | nil =>
    intro m hwf _
    exact ⟨hwf, fun K _ _ => rfl, fun K _ hK => absurd hK (List.not_mem_nil K)⟩
  | cons c rest ih =>
    intro m hwf hval
    have hvc : validKey c := hval c (List.mem_cons_self c rest)
    obtain ⟨hwfA, ⟨n0, w0, hc0, hgA⟩, hfrA, _⟩ := hashmap_increment_spec m hwf c hvc win
    have hn0 : n0 = lookN m c ∧ w0 = lookW m c := by
      rcases hc0 with ⟨h1, h2, h3⟩ | ⟨e0, h1, h2, h3⟩
      · unfold lookN lookW
        rw [h1]
        exact ⟨h2, h3⟩
      · unfold lookN lookW
        rw [h1]
        exact ⟨h2, h3⟩
    rw [hn0.1, hn0.2] at hgA
    have hvrest : ∀ k ∈ rest, validKey k := fun k hk => hval k (List.mem_cons_of_mem c hk)
    obtain ⟨hwfB, hfrB, hinB⟩ := ih (hashmap_increment m c win) hwfA hvrest
    refine ⟨by simpa only [List.foldl_cons] using hwfB, ?_, ?_⟩
    · intro K hK hKn
      have hKnc : K ≠ c := fun h => hKn (h ▸ List.mem_cons_self c rest)
      have hKnr : K ∉ rest := fun h => hKn (List.mem_cons_of_mem c h)
      simp only [List.foldl_cons]
      rw [hfrB K hK hKnr]
      exact hfrA K hK hKnc
    · intro K hK hKm
      simp only [List.foldl_cons]
      by_cases hKc : K = c
      · subst hKc
        have hl1 : lookN (hashmap_increment m K win) K = (lookN m K + 1) % M64 := by
          unfold lookN
          rw [hgA]
          rfl
        have hl2 : lookW (hashmap_increment m K win) K =
            if win then (lookW m K + 1) % M64 else lookW m K := by
          unfold lookW
          rw [hgA]
          rfl
        by_cases hKr : K ∈ rest
        · rw [hinB K hK hKr, hl1, hl2, List.count_cons_self]
          cases win
          · simp only [Bool.false_eq_true, if_false]
            rw [Nat.mod_add_mod]
            have hc2 : lookN m K + 1 + rest.count K = lookN m K + (rest.count K + 1) := by
              omega
            rw [hc2]
          · simp only [if_true]
            rw [Nat.mod_add_mod, Nat.mod_add_mod]
            have hc2 : lookN m K + 1 + rest.count K = lookN m K + (rest.count K + 1) := by
              omega
            have hc3 : lookW m K + 1 + rest.count K = lookW m K + (rest.count K + 1) := by
              omega
            rw [hc2, hc3]
        · rw [hfrB K hK hKr, hgA, List.count_cons_self,
            List.count_eq_zero_of_not_mem hKr]
      · have hKr : K ∈ rest := by
          rcases List.mem_cons.mp hKm with h | h
          · exact absurd h hKc
          · exact h
        have hl1 : lookN (hashmap_increment m c win) K = lookN m K := by
          unfold lookN
          rw [hfrA K hK hKc]
        have hl2 : lookW (hashmap_increment m c win) K = lookW m K := by
          unfold lookW
          rw [hfrA K hK hKc]
        rw [hinB K hK hKr, hl1, hl2, List.count_cons_of_ne hKc]

theorem labels_process_game_eq (ctx : LabelContext) (c : Nat) (r : List Nat) (win : Bool) :
    labels_process_game ctx (c :: r) win =
      ⟨(ctx.total_games + 1) % M64,
        (if win then (ctx.total_wins + 1) % M64 else ctx.total_wins),
        (cDedup [] (c :: r)).foldl (fun m d => hashmap_increment m d win) ctx.card_stats,
        (pairList (cDedup [] (c :: r))).foldl (fun m k => hashmap_increment m k win)
          ctx.pair_stats⟩ := rfl

/-- C4: counterexample.  The single-card list `[UINT64_MAX]` has one
distinct identifier, yet `labels_process_game` leaves `card_stats`
untouched: the increment silently rejects the in-band sentinel value,
so no per-card count is recorded even though `total_games` advances. -/
theorem labels_process_game_counterexample :
    (labels_process_game ⟨0, 0, fresh16, fresh16⟩ [HASH_EMPTY_KEY] true).total_games = 1 ∧
      (labels_process_game ⟨0, 0, fresh16, fresh16⟩ [HASH_EMPTY_KEY] true).card_stats =
        fresh16 ∧
      hashmap_get
        (labels_process_game ⟨0, 0, fresh16, fresh16⟩ [HASH_EMPTY_KEY] true).card_stats
        HASH_EMPTY_KEY = none := by
  decide

/-- C4 (amended): for identifier lists of at most `MAX_GAME_CARDS`
distinct values, all non-sentinel, with collision-free and non-sentinel
pair keys, `labels_process_game` bumps the global counters once, bumps
the per-card counter exactly once for each distinct identifier in the
list (duplicates are ignored), and bumps the per-pair counter exactly
once for each unordered pair of distinct identifiers, all modulo
`2 ^ 64`. -/
theorem labels_process_game_counts (ctx : LabelContext) (ids : List Nat) (win : Bool)
    (hwfc : WF ctx.card_stats) (hwfp : WF ctx.pair_stats)
    (hval : ∀ a ∈ ids, validKey a)
    (hpval : ∀ a ∈ ids, ∀ b ∈ ids, a ≠ b → validKey (pair_key a b))
    (hinj : ∀ a ∈ ids, ∀ b ∈ ids, ∀ c ∈ ids, ∀ d ∈ ids, a ≠ b → c ≠ d →
      pair_key a b = pair_key c d → (a = c ∧ b = d) ∨ (a = d ∧ b = c))
    (hcard : ids.toFinset.card ≤ MAX_GAME_CARDS) :
    (labels_process_game ctx ids win).total_games = (ctx.total_games + 1) % M64 ∧
      (labels_process_game ctx ids win).total_wins =
        (if win then (ctx.total_wins + 1) % M64 else ctx.total_wins) ∧
      (∀ a, validKey a → a ∉ ids →
        hashmap_get (labels_process_game ctx ids win).card_stats a =
          hashmap_get ctx.card_stats a) ∧
      (∀ a ∈ ids,
        hashmap_get (labels_process_game ctx ids win).card_stats a =
          some ⟨a, (lookN ctx.card_stats a + 1) % M64,
            if win then (lookW ctx.card_stats a + 1) % M64 else lookW ctx.card_stats a⟩) ∧
      (∀ K, validKey K → (∀ a ∈ ids, ∀ b ∈ ids, a ≠ b → pair_key a b ≠ K) →
        hashmap_get (labels_process_game ctx ids win).pair_stats K =
          hashmap_get ctx.pair_stats K) ∧
      (∀ a ∈ ids, ∀ b ∈ ids, a ≠ b →
        hashmap_get (labels_process_game ctx ids win).pair_stats (pair_key a b) =
          some ⟨pair_key a b, (lookN ctx.pair_stats (pair_key a b) + 1) % M64,
            if win then (lookW ctx.pair_stats (pair_key a b) + 1) % M64
            else lookW ctx.pair_stats (pair_key a b)⟩) := by
  obtain ⟨hund, humem0⟩ := cDedup_spec ids [] List.nodup_nil (by simpa using hcard)
  have humem : ∀ a, a ∈ cDedup [] ids ↔ a ∈ ids := by
    intro a
    rw [humem0 a]
    simp
  cases ids with
  | nil =>
    refine ⟨rfl, rfl, fun a _ _ => rfl, fun a ha => absurd ha (List.not_mem_nil a),
      fun K _ _ => rfl, fun a ha => absurd ha (List.not_mem_nil a)⟩
  | cons c r =>
    rw [labels_process_game_eq]
    have huval : ∀ k ∈ cDedup [] (c :: r), validKey k :=
      fun k hk => hval k ((humem k).mp hk)
    have hplval : ∀ K ∈ pairList (cDedup [] (c :: r)), validKey K := by
      intro K hK
      obtain ⟨x, hx, y, hy, hxy, hk⟩ := (pairList_mem K _ hund).mp hK
      exact hk ▸ hpval x ((humem x).mp hx) y ((humem y).mp hy) hxy
    obtain ⟨_, hcfr, hcin⟩ := foldInc_spec win (cDedup [] (c :: r)) ctx.card_stats hwfc huval
    obtain ⟨_, hpfr, hpin⟩ :=
      foldInc_spec win (pairList (cDedup [] (c :: r))) ctx.pair_stats hwfp hplval
    refine ⟨rfl, rfl, ?_, ?_, ?_, ?_⟩
    · intro a hva hna
      exact hcfr a hva (fun h => hna ((humem a).mp h))
    · intro a ha
      have hau : a ∈ cDedup [] (c :: r) := (humem a).mpr ha
      rw [hcin a (hval a ha) hau, List.count_eq_one_of_mem hund hau]
    · intro K hvK hnone
      apply hpfr K hvK
      intro hK
      obtain ⟨x, hx, y, hy, hxy, hk⟩ := (pairList_mem K _ hund).mp hK
      exact hnone x ((humem x).mp hx) y ((humem y).mp hy) hxy hk
    · intro a ha b hb hab
      have hau : a ∈ cDedup [] (c :: r) := (humem a).mpr ha
      have hbu : b ∈ cDedup [] (c :: r) := (humem b).mpr hb
      have hinju : ∀ x ∈ cDedup [] (c :: r), ∀ y ∈ cDedup [] (c :: r),
          ∀ z ∈ cDedup [] (c :: r), ∀ v ∈ cDedup [] (c :: r), x ≠ y → z ≠ v →
          pair_key x y = pair_key z v → (x = z ∧ y = v) ∨ (x = v ∧ y = z) :=
        fun x hx y hy z hz v hv => hinj x ((humem x).mp hx) y ((humem y).mp hy)
          z ((humem z).mp hz) v ((humem v).mp hv)
      have hKmem : pair_key a b ∈ pairList (cDedup [] (c :: r)) :=
        (pairList_mem _ _ hund).mpr ⟨a, hau, b, hbu, hab, rfl⟩
      rw [hpin (pair_key a b) (hpval a ha b hb hab) hKmem,
        pairList_count _ hund hinju a hau b hbu hab]

/-- Witness for C4 on a duplicated two-card list over fresh tables. -/
theorem labels_process_game_counts_witness :
    WF (⟨0, 0, fresh16, fresh16⟩ : LabelContext).card_stats ∧
      ((labels_process_game ⟨0, 0, fresh16, fresh16⟩ [1, 2, 1] true).total_games =
          (0 + 1) % M64 ∧
        (labels_process_game ⟨0, 0, fresh16, fresh16⟩ [1, 2, 1] true).total_wins =
          (if true then (0 + 1) % M64 else 0) ∧
        (∀ a, validKey a → a ∉ [1, 2, 1] →
          hashmap_get (labels_process_game ⟨0, 0, fresh16, fresh16⟩ [1, 2, 1] true).card_stats
            a = hashmap_get fresh16 a) ∧
        (∀ a ∈ [1, 2, 1],
          hashmap_get (labels_process_game ⟨0, 0, fresh16, fresh16⟩ [1, 2, 1] true).card_stats
            a = some ⟨a, (lookN fresh16 a + 1) % M64,
              if true then (lookW fresh16 a + 1) % M64 else lookW fresh16 a⟩) ∧
        (∀ K, validKey K → (∀ a ∈ [1, 2, 1], ∀ b ∈ [1, 2, 1], a ≠ b → pair_key a b ≠ K) →
          hashmap_get (labels_process_game ⟨0, 0, fresh16, fresh16⟩ [1, 2, 1] true).pair_stats
            K = hashmap_get fresh16 K) ∧
        (∀ a ∈ [1, 2, 1], ∀ b ∈ [1, 2, 1], a ≠ b →
          hashmap_get (labels_process_game ⟨0, 0, fresh16, fresh16⟩ [1, 2, 1] true).pair_stats
            (pair_key a b) = some ⟨pair_key a b, (lookN fresh16 (pair_key a b) + 1) % M64,
              if true then (lookW fresh16 (pair_key a b) + 1) % M64
              else lookW fresh16 (pair_key a b)⟩)) :=
  ⟨WF_fresh 16 ⟨4, by norm_num⟩ (by norm_num),
    labels_process_game_counts ⟨0, 0, fresh16, fresh16⟩ [1, 2, 1] true
      (WF_fresh 16 ⟨4, by norm_num⟩ (by norm_num))
      (WF_fresh 16 ⟨4, by norm_num⟩ (by norm_num))
      (by decide) (by decide) (by decide) (by decide)⟩

end AgentOrch
